import Mathlib

/-!
Verification of the crawl engine of `ai_web_scraper.py`.

Python strings are modelled as lists of Unicode code points (`PyStr`), and the
relevant routines of the scraper (URL normalization, text cleaning, the AI
analysis fallback, language bucketing, output sorting, the fetch guard and the
crawl loop) are translated into executable Lean definitions.  External
collaborators (HTTP, BeautifulSoup extraction, the OpenAI oracle, the
filesystem) are modelled as oracles/worlds supplied as parameters; library
routines from `urllib.parse` that the source calls (`urlparse`, `parse_qs`,
`urlencode`, `quote_plus`, `unquote`) are translated from their CPython
behaviour, since `normalize_url` is defined in terms of them.
-/

namespace WebScrap

/-- Python `str` as a list of Unicode code points. -/
abbrev PyStr := List Nat

/-- Conversion from a Lean string literal to the code-point model. -/
def pyOfString (s : String) : PyStr := s.data.map Char.toNat

/-- Unicode scalar values: what a Python `str` that can be utf-8 encoded holds. -/
def ValidCp (c : Nat) : Prop := c < 0x110000 ∧ ¬(0xD800 ≤ c ∧ c < 0xE000)

instance (c : Nat) : Decidable (ValidCp c) := by unfold ValidCp; infer_instance

/-- All code points of the string are Unicode scalar values. -/
def ValidStr (l : PyStr) : Prop := ∀ c ∈ l, ValidCp c

instance (l : PyStr) : Decidable (ValidStr l) := by unfold ValidStr; infer_instance

/-! ### Basic string primitives (Python `find`/`split`/`partition` style) -/

/-- Split a list at the first occurrence of `c` (the occurrence is dropped),
returning `none` when `c` does not occur.  This models Python `s.find(c)`
together with the slicing around it. -/
def breakAt (c : Nat) : PyStr → Option (PyStr × PyStr)
  | [] => none
  | x :: xs =>
    if x = c then some ([], xs)
    else
      match breakAt c xs with
      | some p => some (x :: p.1, p.2)
      | none => none

theorem breakAt_eq_none (c : Nat) (l : PyStr) : breakAt c l = none ↔ c ∉ l := by
  induction l with
  | nil => simp [breakAt]
  | cons x xs ih =>
    by_cases hx : x = c
    · subst hx; simp [breakAt]
    · simp only [breakAt, if_neg hx]
      cases h : breakAt c xs with
      | some p => simp [h, ← ih, Ne.symm hx]
      | none => simp [h, ← ih, Ne.symm hx]

theorem breakAt_some (c : Nat) (l a b : PyStr) (h : breakAt c l = some (a, b)) :
    l = a ++ c :: b ∧ c ∉ a := by
  induction l generalizing a b with
  | nil => simp [breakAt] at h
  | cons x xs ih =>
    by_cases hx : x = c
    · subst hx
      simp [breakAt] at h
      obtain ⟨ha, hb⟩ := h
      subst ha
      subst hb
      simp
    · simp only [breakAt, if_neg hx] at h
      cases hb : breakAt c xs with
      | some p =>
        rw [hb] at h
        simp at h
        obtain ⟨ha, hb2⟩ := h
        obtain ⟨h1, h2⟩ := ih p.1 p.2 (by rw [hb])
        subst ha hb2
        simp [h1, h2, Ne.symm hx]
      | none => rw [hb] at h; simp at h

theorem breakAt_append (c : Nat) (a b : PyStr) (ha : c ∉ a) :
    breakAt c (a ++ c :: b) = some (a, b) := by
  induction a with
  | nil => simp [breakAt]
  | cons x xs ih =>
    simp at ha
    simp only [List.cons_append, breakAt, List.append_eq]
    rw [if_neg (Ne.symm ha.1), ih ha.2]

/-- Take the prefix not containing any stop character; keep the rest (starting
with the stop) as the second component.  Models `_splitnetloc`. -/
def spanUntil (stops : List Nat) : PyStr → PyStr × PyStr
  | [] => ([], [])
  | c :: rest =>
    if c ∈ stops then ([], c :: rest)
    else
      let p := spanUntil stops rest
      (c :: p.1, p.2)

theorem spanUntil_append (stops : List Nat) (a b : PyStr)
    (ha : ∀ x ∈ a, x ∉ stops) (hb : ∀ x, b.head? = some x → x ∈ stops) :
    spanUntil stops (a ++ b) = (a, b) := by
  induction a with
  | nil =>
    cases b with
    | nil => simp [spanUntil]
    | cons y ys => simp [spanUntil, hb y rfl]
  | cons x xs ih =>
    simp at ha
    simp only [List.cons_append, spanUntil, if_neg (ha.1), List.append_eq]
    rw [ih ha.2]

theorem spanUntil_split (stops : List Nat) (l : PyStr) :
    (spanUntil stops l).1 ++ (spanUntil stops l).2 = l := by
  induction l with
  | nil => simp [spanUntil]
  | cons c rest ih =>
    by_cases h : c ∈ stops
    · simp [spanUntil, h]
    · simp [spanUntil, h, ih]

theorem spanUntil_fst_not_stop (stops : List Nat) (l : PyStr) :
    ∀ x ∈ (spanUntil stops l).1, x ∉ stops := by
  induction l with
  | nil => simp [spanUntil]
  | cons c rest ih =>
    by_cases h : c ∈ stops
    · simp [spanUntil, h]
    · simp only [spanUntil, if_neg h]
      intro x hx
      simp at hx
      rcases hx with hx | hx
      · subst hx; exact h
      · exact ih x hx

/-- Split at the last occurrence of `c`, dropping the occurrence:
`l = a ++ c :: b` with `c ∉ b`.  Models `s.rfind(c)` based splitting. -/
def breakAtLast (c : Nat) (l : PyStr) : Option (PyStr × PyStr) :=
  match breakAt c l.reverse with
  | some p => some (p.2.reverse, p.1.reverse)
  | none => none

theorem breakAtLast_append (c : Nat) (a b : PyStr) (hb : c ∉ b) :
    breakAtLast c (a ++ c :: b) = some (a, b) := by
  have : (a ++ c :: b).reverse = b.reverse ++ c :: a.reverse := by
    simp
  rw [breakAtLast, this, breakAt_append c _ _ (by simpa using hb)]
  simp

theorem breakAtLast_eq_none (c : Nat) (l : PyStr) :
    breakAtLast c l = none ↔ c ∉ l := by
  rw [breakAtLast]
  cases h : breakAt c l.reverse with
  | some p =>
    obtain ⟨h1, _⟩ := breakAt_some c l.reverse p.1 p.2 (by rw [h])
    have hc : c ∈ l := by
      have : c ∈ l.reverse := by rw [h1]; simp
      simpa using this
    simp [hc]
  | none => rw [breakAt_eq_none] at h; simpa using h

/-- Accumulator worker for `splitOn`: `acc` is the current field read so far. -/
def splitOnAux (sep : Nat) : PyStr → PyStr → List PyStr
  | [], acc => [acc]
  | c :: rest, acc =>
    if c = sep then acc :: splitOnAux sep rest []
    else splitOnAux sep rest (acc ++ [c])

/-- Python `qs.split(sep)` for a one-character separator. -/
def splitOn (sep : Nat) (l : PyStr) : List PyStr := splitOnAux sep l []

theorem splitOnAux_no_sep (sep : Nat) (l acc : PyStr) (h : sep ∉ l) :
    splitOnAux sep l acc = [acc ++ l] := by
  induction l generalizing acc with
  | nil => simp [splitOnAux]
  | cons c rest ih =>
    simp at h
    rw [splitOnAux, if_neg (Ne.symm h.1), ih _ h.2]
    simp

theorem splitOnAux_append (sep : Nat) (a b acc : PyStr) (ha : sep ∉ a) :
    splitOnAux sep (a ++ sep :: b) acc = (acc ++ a) :: splitOnAux sep b [] := by
  induction a generalizing acc with
  | nil => simp [splitOnAux]
  | cons c rest ih =>
    simp at ha
    rw [List.cons_append, splitOnAux, if_neg (Ne.symm ha.1), ih _ ha.2]
    simp

theorem splitOn_no_sep (sep : Nat) (l : PyStr) (h : sep ∉ l) : splitOn sep l = [l] := by
  rw [splitOn, splitOnAux_no_sep sep l [] h]
  simp

theorem splitOn_append (sep : Nat) (a b : PyStr) (ha : sep ∉ a) :
    splitOn sep (a ++ sep :: b) = a :: splitOn sep b := by
  rw [splitOn, splitOnAux_append sep a b [] ha, splitOn]
  simp

/-! ### Character classes -/

/-- ASCII uppercase letter. -/
def isUpperCp (c : Nat) : Bool := decide (65 ≤ c ∧ c ≤ 90)

/-- ASCII lowercase letter. -/
def isLowerCp (c : Nat) : Bool := decide (97 ≤ c ∧ c ≤ 122)

/-- ASCII letter. -/
def isAlphaCp (c : Nat) : Bool := isUpperCp c || isLowerCp c

/-- ASCII digit. -/
def isDigitCp (c : Nat) : Bool := decide (48 ≤ c ∧ c ≤ 57)

/-- Python `str.lower()` restricted to ASCII; `urlsplit` only lowercases a
scheme that was already validated to be ASCII letters/digits/`+-.`. -/
def lowerAscii (s : PyStr) : PyStr := s.map fun c => if isUpperCp c then c + 32 else c

/-- Characters allowed in a URL scheme by `urllib.parse` (`scheme_chars`). -/
def isSchemeChar (c : Nat) : Bool :=
  isAlphaCp c || isDigitCp c || decide (c = 43) || decide (c = 45) || decide (c = 46)

/-- The scheme test of CPython `urlsplit`: nonempty, first char an ASCII
letter, all chars in `scheme_chars`. -/
def validScheme (s : PyStr) : Bool :=
  match s with
  | [] => false
  | c :: _ => isAlphaCp c && s.all isSchemeChar

/-! ### `urllib.parse.urlsplit` / `urlparse` -/

/-- Result of `urlsplit`. -/
structure UrlSplit where
  scheme : PyStr
  netloc : PyStr
  path : PyStr
  query : PyStr
  fragment : PyStr
deriving DecidableEq, Repr

/-- CPython `urlsplit` removes ASCII tab/CR/LF from the URL before parsing
(`_UNSAFE_URL_BYTES_TO_REMOVE`). -/
def removeUnsafe (u : PyStr) : PyStr :=
  u.filter fun c => !(c == 9 || c == 13 || c == 10)

/-- Model of `urllib.parse.urlsplit`: split off a validated scheme at the
first `:`, an authority after `//` (up to `/?#`), then the fragment at the
first `#`, then the query at the first `?`. -/
def urlsplit (url0 : PyStr) : UrlSplit :=
  let url := removeUnsafe url0
  let sr : PyStr × PyStr :=
    match breakAt 58 url with
    | some p => if validScheme p.1 then (lowerAscii p.1, p.2) else ([], url)
    | none => ([], url)
  let nr : PyStr × PyStr :=
    if sr.2.take 2 = [47, 47] then spanUntil [47, 63, 35] (sr.2.drop 2)
    else ([], sr.2)
  let rf : PyStr × PyStr :=
    match breakAt 35 nr.2 with
    | some p => p
    | none => (nr.2, [])
  let pq : PyStr × PyStr :=
    match breakAt 63 rf.1 with
    | some p => p
    | none => (rf.1, [])
  ⟨sr.1, nr.1, pq.1, pq.2, rf.2⟩

/-- CPython `_splitparams`: split `;params` off the last path segment. -/
def splitparams (p : PyStr) : PyStr × PyStr :=
  if 59 ∈ p then
    if 47 ∈ p then
      match breakAtLast 47 p with
      | some ab =>
        match breakAt 59 ab.2 with
        | some b12 => (ab.1 ++ 47 :: b12.1, b12.2)
        | none => (p, [])
      | none => (p, [])
    else
      match breakAt 59 p with
      | some p12 => (p12.1, p12.2)
      | none => (p, [])
  else (p, [])

/-- Result of `urlparse` (adds the params component). -/
structure UrlParsed where
  scheme : PyStr
  netloc : PyStr
  path : PyStr
  params : PyStr
  query : PyStr
  fragment : PyStr
deriving DecidableEq, Repr

/-- Model of `urllib.parse.urlparse`: `urlsplit` plus the params split. -/
def urlparse (url : PyStr) : UrlParsed :=
  let s := urlsplit url
  let pp := splitparams s.path
  ⟨s.scheme, s.netloc, pp.1, pp.2, s.query, s.fragment⟩

/-- The netloc stage of `urlsplit` in isolation: `(netloc, rest)`. -/
def netlocSplit (R : PyStr) : PyStr × PyStr :=
  if R.take 2 = [47, 47] then spanUntil [47, 63, 35] (R.drop 2) else ([], R)

/-- The fragment stage of `urlsplit` in isolation: `(rest, fragment)`. -/
def fragSplit (l : PyStr) : PyStr × PyStr :=
  match breakAt 35 l with
  | some p => p
  | none => (l, [])

/-- The query stage of `urlsplit` in isolation: `(path, query)`. -/
def querySplit (l : PyStr) : PyStr × PyStr :=
  match breakAt 63 l with
  | some p => p
  | none => (l, [])

/-- The whole post-scheme part of `urlsplit` as a composition of the three
stages: `(netloc, path, query, fragment)`. -/
def splitTail (R : PyStr) : PyStr × PyStr × PyStr × PyStr :=
  ((netlocSplit R).1, (querySplit (fragSplit (netlocSplit R).2).1).1,
    (querySplit (fragSplit (netlocSplit R).2).1).2, (fragSplit (netlocSplit R).2).2)

/-! ### Percent-encoding (`quote_plus` / `unquote_plus`) -/

/-- Hex digit (either case), as accepted by `unquote`. -/
def isHexDigit (c : Nat) : Bool :=
  decide (48 ≤ c ∧ c ≤ 57) || decide (65 ≤ c ∧ c ≤ 70) || decide (97 ≤ c ∧ c ≤ 102)

/-- Numeric value of a hex digit. -/
def hexVal (c : Nat) : Nat :=
  if c ≤ 57 then c - 48 else if c ≤ 70 then c - 55 else c - 87

/-- Upper-case hex digit for a value below 16 (as emitted by `quote`). -/
def hexDigit (n : Nat) : Nat := if n < 10 then n + 48 else n + 55

/-- UTF-8 encoding of one code point, as a list of byte values. -/
def utf8EncodeCp (c : Nat) : List Nat :=
  if c < 0x80 then [c]
  else if c < 0x800 then [0xC0 + c / 0x40, 0x80 + c % 0x40]
  else if c < 0x10000 then
    [0xE0 + c / 0x1000, 0x80 + c / 0x40 % 0x40, 0x80 + c % 0x40]
  else
    [0xF0 + c / 0x40000, 0x80 + c / 0x1000 % 0x40, 0x80 + c / 0x40 % 0x40, 0x80 + c % 0x40]

/-- Strict UTF-8 decoding of a byte list to code points; ill-formed bytes
decode to U+FFFD, matching Python `errors="replace"` on well-formed input and
producing a replacement character otherwise. -/
def utf8Decode : List Nat → List Nat
  | [] => []
  | [b] =>
    if b < 0x80 then [b] else [0xFFFD]
  | [b, b1] =>
    if b < 0x80 then b :: utf8Decode [b1]
    else if b < 0xC2 then 0xFFFD :: utf8Decode [b1]
    else if b < 0xE0 then
      if 0x80 ≤ b1 ∧ b1 < 0xC0 then [(b - 0xC0) * 0x40 + (b1 - 0x80)]
      else 0xFFFD :: utf8Decode [b1]
    else 0xFFFD :: utf8Decode [b1]
  | [b, b1, b2] =>
    if b < 0x80 then b :: utf8Decode [b1, b2]
    else if b < 0xC2 then 0xFFFD :: utf8Decode [b1, b2]
    else if b < 0xE0 then
      if 0x80 ≤ b1 ∧ b1 < 0xC0 then ((b - 0xC0) * 0x40 + (b1 - 0x80)) :: utf8Decode [b2]
      else 0xFFFD :: utf8Decode [b1, b2]
    else if b < 0xF0 then
      if (0x80 ≤ b1 ∧ b1 < 0xC0) ∧ (0x80 ≤ b2 ∧ b2 < 0xC0) ∧
          (b = 0xE0 → 0xA0 ≤ b1) ∧ (b = 0xED → b1 < 0xA0) then
        [(b - 0xE0) * 0x1000 + (b1 - 0x80) * 0x40 + (b2 - 0x80)]
      else 0xFFFD :: utf8Decode [b1, b2]
    else 0xFFFD :: utf8Decode [b1, b2]
  | b :: b1 :: b2 :: b3 :: bs =>
    if b < 0x80 then b :: utf8Decode (b1 :: b2 :: b3 :: bs)
    else if b < 0xC2 then 0xFFFD :: utf8Decode (b1 :: b2 :: b3 :: bs)
    else if b < 0xE0 then
      if 0x80 ≤ b1 ∧ b1 < 0xC0 then
        ((b - 0xC0) * 0x40 + (b1 - 0x80)) :: utf8Decode (b2 :: b3 :: bs)
      else 0xFFFD :: utf8Decode (b1 :: b2 :: b3 :: bs)
    else if b < 0xF0 then
      if (0x80 ≤ b1 ∧ b1 < 0xC0) ∧ (0x80 ≤ b2 ∧ b2 < 0xC0) ∧
          (b = 0xE0 → 0xA0 ≤ b1) ∧ (b = 0xED → b1 < 0xA0) then
        ((b - 0xE0) * 0x1000 + (b1 - 0x80) * 0x40 + (b2 - 0x80)) :: utf8Decode (b3 :: bs)
      else 0xFFFD :: utf8Decode (b1 :: b2 :: b3 :: bs)
    else if b < 0xF5 then
      if (0x80 ≤ b1 ∧ b1 < 0xC0) ∧ (0x80 ≤ b2 ∧ b2 < 0xC0) ∧ (0x80 ≤ b3 ∧ b3 < 0xC0) ∧
          (b = 0xF0 → 0x90 ≤ b1) ∧ (b = 0xF4 → b1 < 0x90) then
        ((b - 0xF0) * 0x40000 + (b1 - 0x80) * 0x1000 + (b2 - 0x80) * 0x40 + (b3 - 0x80)) ::
          utf8Decode bs
      else 0xFFFD :: utf8Decode (b1 :: b2 :: b3 :: bs)
    else 0xFFFD :: utf8Decode (b1 :: b2 :: b3 :: bs)

/-- Characters `quote` never escapes (`_ALWAYS_SAFE`, with `safe=""`):
ASCII alphanumerics and `_.-~`. -/
def alwaysSafe (c : Nat) : Bool :=
  isAlphaCp c || isDigitCp c || decide (c = 95) || decide (c = 46) ||
    decide (c = 45) || decide (c = 126)

/-- Encoding of one character under `quote_plus`: safe characters pass,
space becomes `+`, everything else is `%XX`-escaped per UTF-8 byte. -/
def quoteChar (c : Nat) : PyStr :=
  if alwaysSafe c then [c]
  else if c = 32 then [43]
  else (utf8EncodeCp c).foldr (fun b acc => 37 :: hexDigit (b / 16) :: hexDigit (b % 16) :: acc) []

/-- Model of `urllib.parse.quote_plus` with `safe=""`. -/
def quote_plus (s : PyStr) : PyStr := s.foldr (fun c acc => quoteChar c ++ acc) []

/-- Tokens of the `unquote` scanner: literal characters and `%XX` bytes. -/
inductive QTok where
  | lit (c : Nat)
  | byte (b : Nat)
deriving DecidableEq, Repr

/-- Tokenize a string for `unquote`: each valid `%XX` escape becomes a byte,
everything else is literal (an invalid escape leaves the `%` literal). -/
def qTokens : PyStr → List QTok
  | [] => []
  | [c] => [.lit c]
  | [c, d] => .lit c :: qTokens [d]
  | c :: h1 :: h2 :: rest2 =>
    if c = 37 then
      if isHexDigit h1 ∧ isHexDigit h2 then
        .byte (hexVal h1 * 16 + hexVal h2) :: qTokens rest2
      else .lit 37 :: qTokens (h1 :: h2 :: rest2)
    else .lit c :: qTokens (h1 :: h2 :: rest2)

/-- Worker for regrouping `unquote` tokens from the right: the first
component collects the byte run that starts at this point, the second is the
decoded remainder. -/
def regroupF : List QTok → List Nat × PyStr
  | [] => ([], [])
  | .byte b :: ts => (b :: (regroupF ts).1, (regroupF ts).2)
  | .lit c :: ts => ([], c :: (utf8Decode (regroupF ts).1 ++ (regroupF ts).2))

/-- Regroup `unquote` tokens: maximal runs of bytes are UTF-8 decoded as one
unit (matching CPython, which buffers consecutive escapes and decodes them
together), literals pass through. -/
def regroupTokens (ts : List QTok) : PyStr :=
  utf8Decode (regroupF ts).1 ++ (regroupF ts).2

/-- Model of `urllib.parse.unquote` with utf-8/`replace`. -/
def unquote (s : PyStr) : PyStr := regroupTokens (qTokens s)

/-- Model of `unquote_plus` (used by `parse_qsl`): `+` to space, then unquote. -/
def unquote_plus (s : PyStr) : PyStr :=
  unquote (s.map fun c => if c = 43 then 32 else c)

/-! ### `parse_qsl` / `parse_qs` / `urlencode` -/

/-- Model of `urllib.parse.parse_qsl` with `keep_blank_values=True`,
separator `&`: empty fields are skipped, each field is split at its first
`=` (absent `=` gives an empty value), names and values are unquoted. -/
def parse_qsl (qs : PyStr) : List (PyStr × PyStr) :=
  (splitOn 38 qs).filterMap fun f =>
    if f.isEmpty then none
    else
      match breakAt 61 f with
      | some nv => some (unquote_plus nv.1, unquote_plus nv.2)
      | none => some (unquote_plus f, [])

/-- Append a value under a key in a first-occurrence-ordered association
list, as the dict building loop of `parse_qs` does. -/
def dictAdd (d : List (PyStr × List PyStr)) (k : PyStr) (v : PyStr) :
    List (PyStr × List PyStr) :=
  match d with
  | [] => [(k, [v])]
  | e :: rest => if e.1 = k then (e.1, e.2 ++ [v]) :: rest else e :: dictAdd rest k v

/-- Model of `urllib.parse.parse_qs` with `keep_blank_values=True`. -/
def parse_qs (qs : PyStr) : List (PyStr × List PyStr) :=
  (parse_qsl qs).foldl (fun d kv => dictAdd d kv.1 kv.2) []

/-- Python `sep.join` for a one-character separator. -/
def joinWith (sep : Nat) : List PyStr → PyStr
  | [] => []
  | x :: xs =>
    match xs with
    | [] => x
    | _ => x ++ sep :: joinWith sep xs

/-- Model of `urllib.parse.urlencode` with `doseq=True` on `dict.items()`
style input: each value of the list is emitted as `quote_plus(k)=quote_plus(v)`
and the fields are joined with `&`. -/
def urlencode (items : List (PyStr × List PyStr)) : PyStr :=
  joinWith 38 ((items.map fun kv => kv.2.map fun v => quote_plus kv.1 ++ 61 :: quote_plus v).flatten)

/-! ### Python `sorted` -/

/-- Stable insertion step: place `x` before the first element not strictly
below it.  `foldr pyInsort []` is extensionally Python `sorted` (ascending,
stable) for a strict total order `lt`. -/
def pyInsort (lt : α → α → Bool) (x : α) : List α → List α
  | [] => [x]
  | y :: ys => if lt y x then y :: pyInsort lt x ys else x :: y :: ys

/-- Python `sorted(l)` for the strict comparator `lt`: ascending and stable. -/
def pySorted (lt : α → α → Bool) (l : List α) : List α := l.foldr (pyInsort lt) []

/-- Lexicographic comparison of Python sequences from a strict comparator on
elements: first difference decides, a proper prefix is smaller. -/
def lexLtBy (lt : α → α → Bool) : List α → List α → Bool
  | [], [] => false
  | [], _ :: _ => true
  | _ :: _, [] => false
  | a :: as, b :: bs => if lt a b then true else if lt b a then false else lexLtBy lt as bs

/-- Strict comparison on code points. -/
def natLtB (a b : Nat) : Bool := decide (a < b)

/-- Python `str` comparison. -/
def pyStrLt : PyStr → PyStr → Bool := lexLtBy natLtB

/-- Python comparison of lists of strings. -/
def strListLt : List PyStr → List PyStr → Bool := lexLtBy pyStrLt

/-- Python tuple comparison on `dict.items()` entries `(key, value-list)`. -/
def qitemLt (a b : PyStr × List PyStr) : Bool :=
  if pyStrLt a.1 b.1 then true
  else if pyStrLt b.1 a.1 then false
  else strListLt a.2 b.2

/-! ### Properties of the comparators and of `pySorted` -/

/-- Transitivity of a strict comparator. -/
def LtTrans (lt : α → α → Bool) : Prop :=
  ∀ a b c, lt a b = true → lt b c = true → lt a c = true

/-- Asymmetry of a strict comparator. -/
def LtAsymm (lt : α → α → Bool) : Prop :=
  ∀ a b, lt a b = true → lt b a = false

/-- Connectedness: incomparable elements are equal. -/
def LtConn (lt : α → α → Bool) : Prop :=
  ∀ a b, lt a b = false → lt b a = false → a = b

/-- The shape of trichotomy used by the insertion-sort invariant. -/
def LtStep (lt : α → α → Bool) : Prop :=
  ∀ x y z, lt z x = true → lt z y = true ∨ lt y x = true

theorem ltStep_of (lt : α → α → Bool) (htrans : LtTrans lt) (hconn : LtConn lt) :
    LtStep lt := by
  intro x y z hzx
  by_cases h1 : lt z y = true
  · exact Or.inl h1
  · by_cases h2 : lt y z = true
    · exact Or.inr (htrans y z x h2 hzx)
    · have : z = y :=
        hconn z y (Bool.not_eq_true _ ▸ h1) (Bool.not_eq_true _ ▸ h2)
      subst this
      exact Or.inr hzx

theorem natLtB_trans : LtTrans natLtB := by
  intro a b c hab hbc
  simp [natLtB] at *
  omega

theorem natLtB_asymm : LtAsymm natLtB := by
  intro a b hab
  simp [natLtB] at *
  omega

theorem natLtB_conn : LtConn natLtB := by
  intro a b hab hba
  simp [natLtB] at *
  omega

theorem lexLtBy_trans (lt : α → α → Bool) (htrans : LtTrans lt)
    (hconn : LtConn lt) : LtTrans (lexLtBy lt) := by
  intro a
  induction a with
  | nil =>
    intro b c hab hbc
    cases b with
    | nil => simp [lexLtBy] at hab
    | cons y bs =>
      cases c with
      | nil => simp [lexLtBy] at hbc
      | cons z cs => simp [lexLtBy]
  | cons x as ih =>
    intro b c hab hbc
    cases b with
    | nil => simp [lexLtBy] at hab
    | cons y bs =>
      cases c with
      | nil => simp [lexLtBy] at hbc
      | cons z cs =>
        rw [lexLtBy] at hab hbc ⊢
        by_cases hxy : lt x y = true
        · by_cases hyz : lt y z = true
          · rw [if_pos (htrans x y z hxy hyz)]
          · rw [if_neg hyz] at hbc
            by_cases hzy : lt z y = true
            · rw [if_pos hzy] at hbc; exact absurd hbc (by simp)
            · have : y = z :=
                hconn y z (Bool.not_eq_true _ ▸ hyz) (Bool.not_eq_true _ ▸ hzy)
              subst this
              rw [if_pos hxy]
        · rw [if_neg hxy] at hab
          by_cases hyx : lt y x = true
          · rw [if_pos hyx] at hab; exact absurd hab (by simp)
          · rw [if_neg hyx] at hab
            have hx : x = y :=
              hconn x y (Bool.not_eq_true _ ▸ hxy) (Bool.not_eq_true _ ▸ hyx)
            subst hx
            by_cases hxz : lt x z = true
            · rw [if_pos hxz]
            · rw [if_neg hxz] at hbc ⊢
              by_cases hzx : lt z x = true
              · rw [if_pos hzx] at hbc; exact absurd hbc (by simp)
              · rw [if_neg hzx] at hbc ⊢
                exact ih bs cs hab hbc

theorem lexLtBy_asymm (lt : α → α → Bool) (hasymm : LtAsymm lt) :
    LtAsymm (lexLtBy lt) := by
  intro a
  induction a with
  | nil =>
    intro b hab
    cases b with
    | nil => simp [lexLtBy] at hab
    | cons y bs => simp [lexLtBy]
  | cons x as ih =>
    intro b hab
    cases b with
    | nil => simp [lexLtBy] at hab
    | cons y bs =>
      rw [lexLtBy] at hab ⊢
      by_cases hxy : lt x y = true
      · rw [hasymm x y hxy, if_neg (by simp), if_pos hxy]
      · rw [if_neg hxy] at hab
        by_cases hyx : lt y x = true
        · rw [if_pos hyx] at hab; exact absurd hab (by simp)
        · rw [if_neg hyx] at hab
          rw [if_neg hyx, if_neg hxy]
          exact ih bs hab

theorem lexLtBy_conn (lt : α → α → Bool) (hconn : LtConn lt) : LtConn (lexLtBy lt) := by
  intro a
  induction a with
  | nil =>
    intro b hab _
    cases b with
    | nil => rfl
    | cons y bs => simp [lexLtBy] at hab
  | cons x as ih =>
    intro b hab hba
    cases b with
    | nil => simp [lexLtBy] at hba
    | cons y bs =>
      rw [lexLtBy] at hab hba
      by_cases hxy : lt x y = true
      · rw [if_pos hxy] at hab; exact absurd hab (by simp)
      · by_cases hyx : lt y x = true
        · rw [if_pos hyx] at hba; exact absurd hba (by simp)
        · rw [if_neg hxy, if_neg hyx] at hab
          rw [if_neg hyx, if_neg hxy] at hba
          have hx : x = y :=
            hconn x y (Bool.not_eq_true _ ▸ hxy) (Bool.not_eq_true _ ▸ hyx)
          rw [hx, ih bs hab hba]

theorem pyStrLt_trans : LtTrans pyStrLt :=
  lexLtBy_trans natLtB natLtB_trans natLtB_conn

theorem pyStrLt_asymm : LtAsymm pyStrLt := lexLtBy_asymm natLtB natLtB_asymm

theorem pyStrLt_conn : LtConn pyStrLt := lexLtBy_conn natLtB natLtB_conn

theorem strListLt_trans : LtTrans strListLt :=
  lexLtBy_trans pyStrLt pyStrLt_trans pyStrLt_conn

theorem strListLt_asymm : LtAsymm strListLt := lexLtBy_asymm pyStrLt pyStrLt_asymm

theorem strListLt_conn : LtConn strListLt := lexLtBy_conn pyStrLt pyStrLt_conn

theorem qitemLt_trans : LtTrans qitemLt := by
  intro a b c hab hbc
  rw [qitemLt] at hab hbc ⊢
  by_cases h1 : pyStrLt a.1 b.1 = true
  · by_cases h2 : pyStrLt b.1 c.1 = true
    · rw [if_pos (pyStrLt_trans a.1 b.1 c.1 h1 h2)]
    · rw [if_neg h2] at hbc
      by_cases h3 : pyStrLt c.1 b.1 = true
      · rw [if_pos h3] at hbc; exact absurd hbc (by simp)
      · have : b.1 = c.1 :=
          pyStrLt_conn b.1 c.1 (Bool.not_eq_true _ ▸ h2) (Bool.not_eq_true _ ▸ h3)
        rw [if_pos (this ▸ h1)]
  · rw [if_neg h1] at hab
    by_cases h2 : pyStrLt b.1 a.1 = true
    · rw [if_pos h2] at hab; exact absurd hab (by simp)
    · rw [if_neg h2] at hab
      have hk : a.1 = b.1 :=
        pyStrLt_conn a.1 b.1 (Bool.not_eq_true _ ▸ h1) (Bool.not_eq_true _ ▸ h2)
      by_cases h3 : pyStrLt b.1 c.1 = true
      · rw [if_pos (hk ▸ h3)]
      · rw [if_neg h3] at hbc
        by_cases h4 : pyStrLt c.1 b.1 = true
        · rw [if_pos h4] at hbc; exact absurd hbc (by simp)
        · rw [if_neg h4] at hbc
          rw [if_neg (hk ▸ h3), if_neg (hk ▸ h4)]
          exact strListLt_trans a.2 b.2 c.2 hab hbc

theorem qitemLt_asymm : LtAsymm qitemLt := by
  intro a b hab
  rw [qitemLt] at hab ⊢
  by_cases h1 : pyStrLt a.1 b.1 = true
  · rw [pyStrLt_asymm a.1 b.1 h1, if_neg (by simp), if_pos h1]
  · rw [if_neg h1] at hab
    by_cases h2 : pyStrLt b.1 a.1 = true
    · rw [if_pos h2] at hab; exact absurd hab (by simp)
    · rw [if_neg h2] at hab
      rw [if_neg h2, if_neg h1]
      exact strListLt_asymm a.2 b.2 hab

theorem qitemLt_conn : LtConn qitemLt := by
  intro a b hab hba
  rw [qitemLt] at hab hba
  by_cases h1 : pyStrLt a.1 b.1 = true
  · rw [if_pos h1] at hab; exact absurd hab (by simp)
  · by_cases h2 : pyStrLt b.1 a.1 = true
    · rw [if_pos h2] at hba; exact absurd hba (by simp)
    · rw [if_neg h1, if_neg h2] at hab
      rw [if_neg h2, if_neg h1] at hba
      have hk : a.1 = b.1 :=
        pyStrLt_conn a.1 b.1 (Bool.not_eq_true _ ▸ h1) (Bool.not_eq_true _ ▸ h2)
      have hv : a.2 = b.2 := strListLt_conn a.2 b.2 hab hba
      exact Prod.ext hk hv

theorem pyInsort_perm (lt : α → α → Bool) (x : α) (l : List α) :
    (pyInsort lt x l).Perm (x :: l) := by
  induction l with
  | nil => exact List.Perm.refl _
  | cons y ys ih =>
    rw [pyInsort]
    split
    · exact (ih.cons y).trans (List.Perm.swap x y ys)
    · exact List.Perm.refl _

theorem pySorted_perm (lt : α → α → Bool) (l : List α) : (pySorted lt l).Perm l := by
  induction l with
  | nil => exact List.Perm.refl _
  | cons x xs ih =>
    have : pySorted lt (x :: xs) = pyInsort lt x (pySorted lt xs) := rfl
    rw [this]
    exact (pyInsort_perm lt x (pySorted lt xs)).trans (ih.cons x)

theorem pyInsort_pairwise (lt : α → α → Bool) (hasymm : LtAsymm lt) (hstep : LtStep lt)
    (x : α) (l : List α) (hl : l.Pairwise fun a b => lt b a = false) :
    (pyInsort lt x l).Pairwise fun a b => lt b a = false := by
  induction l with
  | nil => simp [pyInsort]
  | cons y ys ih =>
    rcases List.pairwise_cons.mp hl with ⟨hy, hys⟩
    rw [pyInsort]
    by_cases hlt : lt y x = true
    · rw [if_pos hlt]
      refine List.pairwise_cons.mpr ⟨?_, ih hys⟩
      intro z hz
      have hz2 : z ∈ x :: ys := (pyInsort_perm lt x ys).mem_iff.mp hz
      rcases List.mem_cons.mp hz2 with hz3 | hz3
      · subst hz3; exact hasymm y z hlt
      · exact hy z hz3
    · rw [if_neg hlt]
      refine List.pairwise_cons.mpr ⟨?_, hl⟩
      intro z hz
      rcases List.mem_cons.mp hz with hz3 | hz3
      · subst hz3; exact Bool.not_eq_true _ ▸ hlt
      · by_contra hzx
        have hzx2 : lt z x = true := by
          cases hb : lt z x
          · exact absurd hb hzx
          · rfl
        rcases hstep x y z hzx2 with hc | hc
        · rw [hy z hz3] at hc; exact absurd hc (by simp)
        · exact absurd hc (by simp [hlt])

theorem pySorted_pairwise (lt : α → α → Bool) (hasymm : LtAsymm lt) (hstep : LtStep lt)
    (l : List α) : (pySorted lt l).Pairwise fun a b => lt b a = false := by
  induction l with
  | nil => simp [pySorted]
  | cons x xs ih => exact pyInsort_pairwise lt hasymm hstep x (pySorted lt xs) ih

theorem pySorted_eq_of_perm (lt : α → α → Bool) (hasymm : LtAsymm lt) (hstep : LtStep lt)
    (hconn : LtConn lt) (l1 l2 : List α) (hp : l1.Perm l2) :
    pySorted lt l1 = pySorted lt l2 := by
  haveI : IsAntisymm α (fun a b => lt b a = false) :=
    ⟨fun a b h1 h2 => hconn a b h2 h1⟩
  exact List.eq_of_perm_of_sorted
    ((pySorted_perm lt l1).trans (hp.trans (pySorted_perm lt l2).symm))
    (pySorted_pairwise lt hasymm hstep l1) (pySorted_pairwise lt hasymm hstep l2)

theorem pySorted_fix (lt : α → α → Bool)
    (l : List α) (hl : l.Pairwise fun a b => lt b a = false) : pySorted lt l = l := by
  induction l with
  | nil => rfl
  | cons x xs ih =>
    rcases List.pairwise_cons.mp hl with ⟨hx, hxs⟩
    have h1 : pySorted lt (x :: xs) = pyInsort lt x (pySorted lt xs) := rfl
    rw [h1, ih hxs]
    cases xs with
    | nil => rfl
    | cons y ys =>
      rw [pyInsort, if_neg (by simp [hx y (by simp)])]

theorem pyInsort_filter_key (lt : α → α → Bool) (κ : α → β) [DecidableEq β]
    (hk : ∀ a b, κ a = κ b → lt a b = false) (x : α) (l : List α) (k : β) :
    (pyInsort lt x l).filter (fun r => decide (κ r = k)) =
      (if κ x = k then [x] else []) ++ l.filter (fun r => decide (κ r = k)) := by
  induction l with
  | nil =>
    rw [pyInsort]
    by_cases hx : κ x = k <;> simp [hx]
  | cons y ys ih =>
    rw [pyInsort]
    by_cases hlt : lt y x = true
    · rw [if_pos hlt]
      have hne : ¬(κ x = k ∧ κ y = k) := by
        rintro ⟨h1, h2⟩
        rw [hk y x (h2.trans h1.symm)] at hlt
        exact absurd hlt (by simp)
      by_cases hy : κ y = k
      · have hx : ¬ κ x = k := fun hx => hne ⟨hx, hy⟩
        simp [List.filter_cons, hy, hx, ih]
      · simp [List.filter_cons, hy, ih]
    · rw [if_neg hlt]
      by_cases hx : κ x = k <;> simp [List.filter_cons, hx]

theorem pySorted_filter_key (lt : α → α → Bool) (κ : α → β) [DecidableEq β]
    (hk : ∀ a b, κ a = κ b → lt a b = false) (l : List α) (k : β) :
    (pySorted lt l).filter (fun r => decide (κ r = k)) =
      l.filter (fun r => decide (κ r = k)) := by
  induction l with
  | nil => rfl
  | cons x xs ih =>
    have h1 : pySorted lt (x :: xs) = pyInsort lt x (pySorted lt xs) := rfl
    rw [h1, pyInsort_filter_key lt κ hk x (pySorted lt xs) k, ih]
    by_cases hx : κ x = k <;> simp [List.filter_cons, hx]

/-! ### `normalize_url` (ai_web_scraper.py lines 255-268) -/

/-- Model of `AIWebScraper.normalize_url`: rebuild `scheme://netloc path`,
append the sorted re-encoded query if one is present, then strip a trailing
slash when the string ends with `/` and contains more than three slashes. -/
def normalize_url (url : PyStr) : PyStr :=
  let parsed := urlparse url
  let base := parsed.scheme ++ [58, 47, 47] ++ parsed.netloc ++ parsed.path
  let normalized :=
    if parsed.query.isEmpty then base
    else base ++ 63 :: urlencode (pySorted qitemLt (parse_qs parsed.query))
  if normalized.getLast? = some 47 ∧ 3 < normalized.count 47 then normalized.dropLast
  else normalized

/-! ### `clean_text` (ai_web_scraper.py lines 270-291) -/

/-- Characters matched by Python `\s` (and stripped by `str.strip()`). -/
def isPySpaceCp (c : Nat) : Bool :=
  c ∈ [9, 10, 11, 12, 13, 28, 29, 30, 31, 32, 133, 160, 5760, 8192, 8193, 8194, 8195,
    8196, 8197, 8198, 8199, 8200, 8201, 8202, 8232, 8233, 8239, 8287, 12288]

/-- Length of the regex match of `\n\s*\n\s*\n+` anchored at the head of `l`:
up to and including the last newline of the leading whitespace run. -/
def nlMatchLen (l : PyStr) : Nat :=
  (l.takeWhile isPySpaceCp).length -
    ((l.takeWhile isPySpaceCp).reverse.takeWhile fun d => !(d == 10)).length

/-- Fuelled scanner for `re.sub(r"\n\s*\n\s*\n+", "\n\n", text)`: a
whitespace run that starts with a newline and contains at least three
newlines is replaced, up to its last newline, by two newlines; scanning
resumes after the match.  Each step consumes at least one character, so fuel
equal to the length of the string is sufficient. -/
def collapseNlF : Nat → PyStr → PyStr
  | 0, l => l
  | fuel + 1, l =>
    match l with
    | [] => []
    | c :: rest =>
      if c = 10 then
        if 3 ≤ ((c :: rest).takeWhile isPySpaceCp).count 10 then
          10 :: 10 :: collapseNlF fuel (List.drop (nlMatchLen (c :: rest)) (c :: rest))
        else c :: collapseNlF fuel rest
      else c :: collapseNlF fuel rest

/-- Model of `re.sub(r"\n\s*\n\s*\n+", "\n\n", text)`. -/
def collapseNl (l : PyStr) : PyStr := collapseNlF l.length l

/-- Fuelled scanner for `re.sub(r" +", " ", text)`: collapse runs of spaces. -/
def collapseSpacesF : Nat → PyStr → PyStr
  | 0, l => l
  | fuel + 1, l =>
    match l with
    | [] => []
    | c :: rest =>
      if c = 32 then 32 :: collapseSpacesF fuel (rest.dropWhile fun d => d == 32)
      else c :: collapseSpacesF fuel rest

/-- Model of `re.sub(r" +", " ", text)`. -/
def collapseSpaces (l : PyStr) : PyStr := collapseSpacesF l.length l

/-- Fuelled scanner for `re.sub(r"\t+", " ", text)`: each run of tabs becomes
one space. -/
def collapseTabsF : Nat → PyStr → PyStr
  | 0, l => l
  | fuel + 1, l =>
    match l with
    | [] => []
    | c :: rest =>
      if c = 9 then 32 :: collapseTabsF fuel (rest.dropWhile fun d => d == 9)
      else c :: collapseTabsF fuel rest

/-- Model of `re.sub(r"\t+", " ", text)`. -/
def collapseTabs (l : PyStr) : PyStr := collapseTabsF l.length l

/-- Characters kept by the non-printable filter
`re.sub(r"[^\x20-\x7E\n\tÀ-ſḀ-ỿ]", "", text)`. -/
def keepCp (c : Nat) : Bool :=
  decide ((32 ≤ c ∧ c ≤ 126) ∨ c = 10 ∨ c = 9 ∨ (192 ≤ c ∧ c ≤ 383) ∨
    (7680 ≤ c ∧ c ≤ 7935))

/-- Python `str.replace` for a single-character pattern. -/
def replaceCp (old : Nat) (new : PyStr) (l : PyStr) : PyStr :=
  l.foldr (fun c acc => if c = old then new ++ acc else c :: acc) []

/-- Python `str.strip()`. -/
def pyStrip (l : PyStr) : PyStr :=
  ((l.dropWhile isPySpaceCp).reverse.dropWhile isPySpaceCp).reverse

/-- Model of `AIWebScraper.clean_text`: whitespace collapsing, then the
non-printable filter, then the typographic replacement table (in dict order),
then `strip()`. -/
def clean_text (text : PyStr) : PyStr :=
  if text.isEmpty then []
  else
    let t1 := collapseNl text
    let t2 := collapseTabs (collapseSpaces t1)
    let t3 := t2.filter keepCp
    let t4 := replaceCp 0x2019 [39] t3
    let t5 := replaceCp 0x2018 [39] t4
    let t6 := replaceCp 0x201C [34] t5
    let t7 := replaceCp 0x201D [34] t6
    let t8 := replaceCp 0x2013 [45] t7
    let t9 := replaceCp 0x2014 [45, 45] t8
    let t10 := replaceCp 0xA0 [32] t9
    pyStrip t10

/-! ### `analyze_content_with_ai` (lines 131-192) -/

/-- The analysis dictionary; fields are optional because the oracle returns
arbitrary JSON and the consumers use `.get` with defaults. -/
structure Analysis where
  language : Option PyStr
  category : Option PyStr
  summary : Option PyStr
  keywords : Option (List PyStr)
  importance_score : Option Int
deriving DecidableEq, Repr

/-- The truncated summary used by the default analysis:
`content[:200] + "..." if len(content) > 200 else content`. -/
def defaultSummary (content : PyStr) : PyStr :=
  if 200 < content.length then content.take 200 ++ [46, 46, 46] else content

/-- The default analysis synthesized when the oracle is missing or fails. -/
def defaultAnalysis (content : PyStr) : Analysis :=
  ⟨some (pyOfString "unknown"), some (pyOfString "general"),
    some (defaultSummary content), some [], some 5⟩

/-- Outcome of the classification oracle: the OpenAI client may be absent
(`self.openai_client is None`), the call may raise, or it may return a parsed
JSON analysis. -/
inductive Oracle where
  | unavailable
  | failure
  | success (a : Analysis)
deriving DecidableEq, Repr

/-- Model of `AIWebScraper.analyze_content_with_ai`: the default analysis is
returned when no client is configured and when the call raises (the
`except Exception` branch); otherwise the oracle result is passed through. -/
def analyze_content_with_ai (oracle : Oracle) (content : PyStr) : Analysis :=
  match oracle with
  | .unavailable => defaultAnalysis content
  | .failure => defaultAnalysis content
  | .success a => a

/-! ### `save_page_content` language bucketing (lines 436-451) -/

/-- One entry of a `multilingual_content` bucket. -/
structure SavedRecord where
  content : PyStr
  analysis : Analysis
deriving DecidableEq, Repr

/-- The `multilingual_content` dict with its three fixed keys. -/
structure Buckets where
  english : List SavedRecord
  french : List SavedRecord
  portuguese : List SavedRecord
deriving DecidableEq, Repr

/-- Model of the bucketing step of `save_page_content`: a recognized language
is appended to its own bucket, `mixed` to all three (in dict key order),
anything else to none. -/
def fileRecord (b : Buckets) (content : PyStr) (a : Analysis) : Buckets :=
  let language := a.language.getD (pyOfString "unknown")
  let r : SavedRecord := ⟨content, a⟩
  if language = pyOfString "english" then { b with english := b.english ++ [r] }
  else if language = pyOfString "french" then { b with french := b.french ++ [r] }
  else if language = pyOfString "portuguese" then { b with portuguese := b.portuguese ++ [r] }
  else if language = pyOfString "mixed" then
    ⟨b.english ++ [r], b.french ++ [r], b.portuguese ++ [r]⟩
  else b

/-! ### Output sorting (`_generate_language_txt` lines 615-619,
`_generate_language_pdf` lines 707-711) -/

/-- The sort key `(x["analysis"].get("importance_score", 5),
x["analysis"].get("category", "zzz"))`. -/
def sortKey (r : SavedRecord) : Int × PyStr :=
  (r.analysis.importance_score.getD 5, r.analysis.category.getD (pyOfString "zzz"))

/-- Python comparison of `(int, str)` tuples. -/
def keyPairLt (a b : Int × PyStr) : Bool :=
  if decide (a.1 < b.1) then true
  else if decide (b.1 < a.1) then false
  else pyStrLt a.2 b.2

/-- Python comparison of the `(score, category)` sort keys of two records. -/
def recKeyLt (a b : SavedRecord) : Bool := keyPairLt (sortKey a) (sortKey b)

/-- Model of `sorted(content_list, key=..., reverse=True)`: Python sort is
stable, and `reverse=True` is a stable descending sort, i.e. the stable
ascending sort under the flipped comparator. -/
def sortedByImportance (content_list : List SavedRecord) : List SavedRecord :=
  pySorted (fun a b => recKeyLt b a) content_list

/-! ### `get_page_content` (lines 293-359) -/

/-- Outcome of `get_page_content` as the crawl loop sees it: a soft skip
(robots / content-type / size guard — `(None, None, None)` without touching
`failed_urls`), a failure (a caught request exception, which appends to
`failed_urls`), or a fetched page. -/
inductive FetchResult where
  | softSkip
  | failure
  | page (text : PyStr) (links : List PyStr)
deriving DecidableEq, Repr

/-- The external world for one URL fetch: robots verdict, HEAD outcome and
headers, GET outcome, streamed body chunks, and the extracted text/links
(extraction via BeautifulSoup is an external collaborator). -/
structure HttpPage where
  robotsAllowed : Bool
  headErr : Bool
  contentType : PyStr
  contentLength : Option Nat
  getErr : Bool
  chunks : List (List Nat)
  text : PyStr
  links : List PyStr

/-- Python substring test used with `in`: does `pat` occur in `l`. -/
def startsW (pat l : PyStr) : Bool := l.take pat.length == pat

/-- Substring containment (Python `pat in l`). -/
def containsSub (pat : PyStr) : PyStr → Bool
  | [] => pat.isEmpty
  | c :: xs => startsW pat (c :: xs) || containsSub pat xs

/-- The content-type whitelist check of `get_page_content`. -/
def htmlLike (contentType : PyStr) : Bool :=
  containsSub (pyOfString "text/html") contentType ||
    containsSub (pyOfString "text/plain") contentType ||
    containsSub (pyOfString "application/xhtml") contentType

/-- The streaming size guard: after appending each chunk, the accumulated
length is compared against `max_file_size`. -/
def exceedsDuring (maxSize : Nat) : List (List Nat) → Nat → Bool
  | [], _ => false
  | ch :: rest, acc =>
    if maxSize < acc + ch.length then true else exceedsDuring maxSize rest (acc + ch.length)

/-- Model of `AIWebScraper.get_page_content`, in source order: robots check,
HEAD (errors are caught and recorded), content-type whitelist,
declared-length guard (`content_length and int(content_length) > max` — an
absent header, `getD 0`, never exceeds), GET (errors are caught and
recorded), streaming size guard, then the page. -/
def get_page_content (maxFileSize : Nat) (pg : HttpPage) : FetchResult :=
  if !pg.robotsAllowed then .softSkip
  else if pg.headErr then .failure
  else if !htmlLike (lowerAscii pg.contentType) then .softSkip
  else if decide (maxFileSize < pg.contentLength.getD 0) then .softSkip
  else if pg.getErr then .failure
  else if exceedsDuring maxFileSize pg.chunks 0 then .softSkip
  else .page pg.text pg.links

/-! ### The crawl loop `scrape_website` (lines 456-542) -/

/-- The mutable state of the crawl loop.  `popLog` and `callLog` are
observation logs recording, in order, the URLs popped from the queue and the
URLs passed to `get_page_content`; they influence nothing. -/
structure CrawlState where
  queue : List PyStr
  visited : List PyStr
  scraped : Nat
  batchCount : Nat
  savesDone : Nat
  failed : List PyStr
  callLog : List PyStr
  popLog : List PyStr
  crashed : Bool
deriving DecidableEq, Repr

/-- Python `set.add` on a duplicate-free list model of `visited_urls`. -/
def setAdd (l : List PyStr) (x : PyStr) : List PyStr := if x ∈ l then l else l ++ [x]

/-- The link-enqueueing loop: each link is appended only if not visited and
not already pending (checked against the queue as it grows). -/
def enqueueLinks (visited queue : List PyStr) (links : List PyStr) : List PyStr :=
  links.foldl (fun q link => if link ∉ visited ∧ link ∉ q then q ++ [link] else q) queue

/-- The external world of a crawl run: the composite outcome of
`get_page_content` per URL, and whether the k-th `_save_progress` call
succeeds (it performs unguarded file I/O). -/
structure CrawlWorld where
  fetch : PyStr → FetchResult
  saveOk : Nat → Bool

/-- The `if content and soup and ai_analysis:` block of the loop body: on a
page with truthy content, enqueue the new links and bump `pages_scraped`; a
failure has already appended to `failed_urls` inside `get_page_content`,
which is recorded here; a soft skip changes nothing. -/
def applyFetch (s : CrawlState) (current : PyStr) (r : FetchResult) : CrawlState :=
  match r with
  | .page text links =>
    if text.isEmpty then s
    else
      { s with
        queue := enqueueLinks s.visited s.queue links
        scraped := s.scraped + 1 }
  | .failure => { s with failed := s.failed ++ [current] }
  | .softSkip => s

/-- One iteration of the `while urls_to_visit and pages_scraped < max_pages`
loop: pop, discard if visited, otherwise fetch via `get_page_content`
(`applyFetch`); always mark the popped URL visited; then the periodic
`_save_progress`, which is not wrapped in any try/except, so a raised
exception aborts the loop (`crashed`). -/
def crawlStep (w : CrawlWorld) (batchSize : Nat) (s : CrawlState) : CrawlState :=
  match s.queue with
  | [] => s
  | current :: rest =>
    let s1 := { s with queue := rest, popLog := s.popLog ++ [current] }
    if current ∈ s1.visited then s1
    else
      let s2 := { s1 with callLog := s1.callLog ++ [current] }
      let s3 := applyFetch s2 current (w.fetch current)
      let s4 := { s3 with visited := setAdd s3.visited current, batchCount := s3.batchCount + 1 }
      if batchSize ≤ s4.batchCount then
        if w.saveOk s4.savesDone then { s4 with batchCount := 0, savesDone := s4.savesDone + 1 }
        else { s4 with crashed := true }
      else s4

theorem applyFetch_visited (s : CrawlState) (current : PyStr) (r : FetchResult) :
    (applyFetch s current r).visited = s.visited := by
  cases r with
  | page text links => rw [applyFetch]; split <;> rfl
  | failure => rfl
  | softSkip => rfl

theorem applyFetch_callLog (s : CrawlState) (current : PyStr) (r : FetchResult) :
    (applyFetch s current r).callLog = s.callLog := by
  cases r with
  | page text links => rw [applyFetch]; split <;> rfl
  | failure => rfl
  | softSkip => rfl

theorem applyFetch_popLog (s : CrawlState) (current : PyStr) (r : FetchResult) :
    (applyFetch s current r).popLog = s.popLog := by
  cases r with
  | page text links => rw [applyFetch]; split <;> rfl
  | failure => rfl
  | softSkip => rfl

/-- Loop exit condition (including abort by an uncaught exception). -/
def crawlDone (maxPages : Nat) (s : CrawlState) : Bool :=
  s.crashed || s.queue.isEmpty || decide (maxPages ≤ s.scraped)

/-- Run the crawl loop for at most `fuel` iterations. -/
def crawlRun (w : CrawlWorld) (batchSize maxPages : Nat) : Nat → CrawlState → CrawlState
  | 0, s => s
  | fuel + 1, s =>
    if crawlDone maxPages s then s
    else crawlRun w batchSize maxPages fuel (crawlStep w batchSize s)

/-- The fresh initial state of `scrape_website` (no resume file):
`urls_to_visit = [base_url]`, everything else empty. -/
def initState (baseUrl : PyStr) : CrawlState := ⟨[baseUrl], [], 0, 0, 0, [], [], [], false⟩

/-! ## Claim C5: oracle failure yields the default analysis -/

/-- C5: when the classification oracle is unavailable or its call raises,
`analyze_content_with_ai` returns the default analysis — language
`"unknown"`, category `"general"`, empty keywords, importance score 5, and a
summary that is the first 200 characters of the text followed by `"..."`
when the text is longer than 200 characters and the text unchanged
otherwise; no error propagates (the function is total and returns the
default record). -/
theorem C5_oracle_failure_default (oracle : Oracle) (content : PyStr)
    (h : oracle = Oracle.unavailable ∨ oracle = Oracle.failure) :
    analyze_content_with_ai oracle content = defaultAnalysis content ∧
    (analyze_content_with_ai oracle content).language = some (pyOfString "unknown") ∧
    (analyze_content_with_ai oracle content).category = some (pyOfString "general") ∧
    (analyze_content_with_ai oracle content).keywords = some [] ∧
    (analyze_content_with_ai oracle content).importance_score = some 5 ∧
    (200 < content.length →
      (analyze_content_with_ai oracle content).summary =
        some (content.take 200 ++ [46, 46, 46])) ∧
    (content.length ≤ 200 →
      (analyze_content_with_ai oracle content).summary = some content) := by
  have he : analyze_content_with_ai oracle content = defaultAnalysis content := by
    rcases h with h | h <;> rw [h] <;> rfl
  rw [he]
  refine ⟨rfl, rfl, rfl, rfl, rfl, ?_, ?_⟩
  · intro hl
    have hs : defaultSummary content = content.take 200 ++ [46, 46, 46] := by
      rw [defaultSummary, if_pos hl]
    simp [defaultAnalysis, hs]
  · intro hl
    have hs : defaultSummary content = content := by
      rw [defaultSummary, if_neg (by omega)]
    simp [defaultAnalysis, hs]

/-- Witness for C5: a failing oracle call on the short text `"hello"`. -/
theorem C5_oracle_failure_default_witness :
    analyze_content_with_ai Oracle.failure (pyOfString "hello") =
      defaultAnalysis (pyOfString "hello") ∧
    (analyze_content_with_ai Oracle.failure (pyOfString "hello")).summary =
      some (pyOfString "hello") := by
  have h := C5_oracle_failure_default Oracle.failure (pyOfString "hello") (Or.inr rfl)
  exact ⟨h.1, h.2.2.2.2.2.2 (by decide)⟩

/-! ## Claim C6: language bucketing in `save_page_content` -/

/-- C6: a record whose language is `english`, `french` or `portuguese` is
appended to exactly that one bucket; a `mixed` record is appended to all
three; a record with language `unknown`, any other unrecognized value, or no
language at all is appended to no bucket. -/
theorem C6_language_bucketing (b : Buckets) (content : PyStr) (a : Analysis) :
    (a.language = some (pyOfString "english") →
      fileRecord b content a = ⟨b.english ++ [⟨content, a⟩], b.french, b.portuguese⟩) ∧
    (a.language = some (pyOfString "french") →
      fileRecord b content a = ⟨b.english, b.french ++ [⟨content, a⟩], b.portuguese⟩) ∧
    (a.language = some (pyOfString "portuguese") →
      fileRecord b content a = ⟨b.english, b.french, b.portuguese ++ [⟨content, a⟩]⟩) ∧
    (a.language = some (pyOfString "mixed") →
      fileRecord b content a =
        ⟨b.english ++ [⟨content, a⟩], b.french ++ [⟨content, a⟩],
          b.portuguese ++ [⟨content, a⟩]⟩) ∧
    (∀ lang, a.language = some lang →
      lang ≠ pyOfString "english" → lang ≠ pyOfString "french" →
      lang ≠ pyOfString "portuguese" → lang ≠ pyOfString "mixed" →
      fileRecord b content a = b) ∧
    (a.language = none → fileRecord b content a = b) := by
  refine ⟨?_, ?_, ?_, ?_, ?_, ?_⟩
  · intro h; simp [fileRecord, h]
  · intro h
    simp only [fileRecord, h, Option.getD_some]
    rw [if_neg (by decide)]
    simp
  · intro h
    simp only [fileRecord, h, Option.getD_some]
    rw [if_neg (by decide), if_neg (by decide)]
    simp
  · intro h
    simp only [fileRecord, h, Option.getD_some]
    rw [if_neg (by decide), if_neg (by decide), if_neg (by decide)]
    simp
  · intro lang h h1 h2 h3 h4
    simp only [fileRecord, h, Option.getD_some]
    rw [if_neg h1, if_neg h2, if_neg h3, if_neg h4]
  · intro h
    simp only [fileRecord, h, Option.getD_none]
    rw [if_neg (by decide), if_neg (by decide), if_neg (by decide), if_neg (by decide)]

/-- Witness for C6: a `mixed` record fans out to all three empty buckets and
an `unknown` record is filed nowhere. -/
theorem C6_language_bucketing_witness :
    fileRecord ⟨[], [], []⟩ (pyOfString "t")
        ⟨some (pyOfString "mixed"), none, none, none, none⟩ =
      ⟨[⟨pyOfString "t", ⟨some (pyOfString "mixed"), none, none, none, none⟩⟩],
        [⟨pyOfString "t", ⟨some (pyOfString "mixed"), none, none, none, none⟩⟩],
        [⟨pyOfString "t", ⟨some (pyOfString "mixed"), none, none, none, none⟩⟩]⟩ ∧
    fileRecord ⟨[], [], []⟩ (pyOfString "t")
        ⟨some (pyOfString "unknown"), none, none, none, none⟩ = ⟨[], [], []⟩ := by
  constructor
  · exact (C6_language_bucketing ⟨[], [], []⟩ (pyOfString "t")
      ⟨some (pyOfString "mixed"), none, none, none, none⟩).2.2.2.1 rfl
  · exact (C6_language_bucketing ⟨[], [], []⟩ (pyOfString "t")
      ⟨some (pyOfString "unknown"), none, none, none, none⟩).2.2.2.2.1
      (pyOfString "unknown") rfl (by decide) (by decide) (by decide) (by decide)

/-! ## Claim C9: typographic punctuation is deleted, not replaced -/

/-- C9 (refuting the claim; the replacement table at lines 284-289 is dead
code): the non-printable filter at line 281 removes every typographic
punctuation character before the replacement loop runs, so `clean_text`
deletes them instead of replacing them with ASCII equivalents.  U+2019 in
`"it’s"` is deleted (yielding `"its"`, not `"it's"`), and likewise the other
characters of the replacement table. -/
theorem C9_punctuation_deleted_not_replaced :
    clean_text (pyOfString "it" ++ [0x2019] ++ pyOfString "s") = pyOfString "its" ∧
    clean_text (pyOfString "it" ++ [0x2019] ++ pyOfString "s") ≠
      pyOfString "it" ++ [39] ++ pyOfString "s" ∧
    clean_text (pyOfString "a" ++ [0x2018] ++ pyOfString "b") = pyOfString "ab" ∧
    clean_text (pyOfString "a" ++ [0x201C] ++ pyOfString "b") = pyOfString "ab" ∧
    clean_text (pyOfString "a" ++ [0x201D] ++ pyOfString "b") = pyOfString "ab" ∧
    clean_text (pyOfString "a" ++ [0x2013] ++ pyOfString "b") = pyOfString "ab" ∧
    clean_text (pyOfString "a" ++ [0x2014] ++ pyOfString "b") = pyOfString "ab" ∧
    clean_text (pyOfString "x" ++ [0xA0] ++ pyOfString "y") = pyOfString "xy" := by
  refine ⟨by decide, by decide, by decide, by decide, by decide, by decide, by decide,
    by decide⟩

/-! ## Claim C8: a checkpoint write failure aborts the crawl loop -/

/-- C8 (refuting the claim): neither the periodic `_save_progress` call at
lines 520-521 nor `_save_progress` itself (lines 544-556) is wrapped in a
try/except, so a raised checkpoint write error propagates out of the loop.
In the model: with `batch_size = 1`, a page that links onward, and a failing
save, the run ends crashed with the queue non-empty and the page budget not
reached — the loop did not continue. -/
theorem C8_checkpoint_failure_crashes :
    (crawlRun
        ⟨fun _ => FetchResult.page (pyOfString "x") [pyOfString "http://a/next"],
          fun _ => false⟩
        1 10 5 (initState (pyOfString "http://a"))).crashed = true ∧
    (crawlRun
        ⟨fun _ => FetchResult.page (pyOfString "x") [pyOfString "http://a/next"],
          fun _ => false⟩
        1 10 5 (initState (pyOfString "http://a"))).queue = [pyOfString "http://a/next"] ∧
    (crawlRun
        ⟨fun _ => FetchResult.page (pyOfString "x") [pyOfString "http://a/next"],
          fun _ => false⟩
        1 10 5 (initState (pyOfString "http://a"))).scraped = 1 := by
  refine ⟨by decide, by decide, by decide⟩

/-! ## Claim C10: oversized streamed body is a soft skip -/

/-- C10: when the accumulated streamed bytes exceed `max_file_size`,
`get_page_content` returns the soft-skip result `(None, None, None)` —
nothing is appended to `failed_urls` and no content is returned to be saved
— and the crawl loop iteration that received it still adds the URL to
`visited_urls` while leaving `pages_scraped` unchanged. -/
theorem C10_oversized_soft_skip (maxFileSize : Nat) (pg : HttpPage) (w : CrawlWorld)
    (s : CrawlState) (u : PyStr) (ts : List PyStr) (batchSize : Nat)
    (hrob : pg.robotsAllowed = true) (hhead : pg.headErr = false)
    (hct : htmlLike (lowerAscii pg.contentType) = true)
    (hlen : pg.contentLength.getD 0 ≤ maxFileSize)
    (hget : pg.getErr = false)
    (hbig : exceedsDuring maxFileSize pg.chunks 0 = true)
    (hw : w.fetch u = get_page_content maxFileSize pg)
    (hq : s.queue = u :: ts) (hu : u ∉ s.visited) :
    get_page_content maxFileSize pg = FetchResult.softSkip ∧
    (crawlStep w batchSize s).failed = s.failed ∧
    (crawlStep w batchSize s).visited = s.visited ++ [u] ∧
    (crawlStep w batchSize s).scraped = s.scraped := by
  have hdl : decide (maxFileSize < pg.contentLength.getD 0) = false :=
    decide_eq_false (by omega)
  have hskip : get_page_content maxFileSize pg = FetchResult.softSkip := by
    rw [get_page_content, hrob, hhead, hct, hget, hdl, hbig]
    simp
  have hfetch : w.fetch u = FetchResult.softSkip := by rw [hw, hskip]
  refine ⟨hskip, ?_, ?_, ?_⟩ <;>
    · simp only [crawlStep, hq, hfetch, applyFetch, setAdd]
      simp only [if_neg hu]
      split
      · split <;> rfl
      · rfl

/-- Witness for C10: a 10-byte limit with two 8-byte chunks; the crawl step
on a fresh state marks the URL visited, fails nothing and scrapes nothing. -/
theorem C10_oversized_soft_skip_witness :
    get_page_content 10
        ⟨true, false, pyOfString "text/html", some 9, false,
          [[1, 2, 3, 4, 5, 6, 7, 8], [1, 2, 3, 4, 5, 6, 7, 8]], pyOfString "t", []⟩ =
      FetchResult.softSkip ∧
    (crawlStep
        ⟨fun _ =>
          get_page_content 10
            ⟨true, false, pyOfString "text/html", some 9, false,
              [[1, 2, 3, 4, 5, 6, 7, 8], [1, 2, 3, 4, 5, 6, 7, 8]], pyOfString "t", []⟩,
          fun _ => true⟩
        10 (initState (pyOfString "http://a"))).visited = [pyOfString "http://a"] := by
  have h := C10_oversized_soft_skip 10
    ⟨true, false, pyOfString "text/html", some 9, false,
      [[1, 2, 3, 4, 5, 6, 7, 8], [1, 2, 3, 4, 5, 6, 7, 8]], pyOfString "t", []⟩
    ⟨fun _ =>
      get_page_content 10
        ⟨true, false, pyOfString "text/html", some 9, false,
          [[1, 2, 3, 4, 5, 6, 7, 8], [1, 2, 3, 4, 5, 6, 7, 8]], pyOfString "t", []⟩,
      fun _ => true⟩
    (initState (pyOfString "http://a")) (pyOfString "http://a") [] 10
    rfl rfl (by decide) (by decide) rfl (by decide) rfl rfl (by decide)
  exact ⟨h.1, by rw [h.2.2.1]; rfl⟩

/-! ## Claim C1: exactly-once processing in the crawl loop -/

/-- The invariant tying the call log, the visited set and the pop log of the
crawl loop together. -/
def CrawlInv (s : CrawlState) : Prop :=
  s.callLog.Nodup ∧ s.visited.Nodup ∧ (∀ u ∈ s.callLog, u ∈ s.visited) ∧
    (∀ u, u ∈ s.visited ↔ u ∈ s.popLog)

theorem crawlStep_inv (w : CrawlWorld) (batchSize : Nat) (s : CrawlState)
    (h : CrawlInv s) : CrawlInv (crawlStep w batchSize s) := by
  obtain ⟨hcl, hv, hsub, hiff⟩ := h
  rw [crawlStep]
  cases hq : s.queue with
  | nil => exact ⟨hcl, hv, hsub, hiff⟩
  | cons current rest =>
    simp only
    by_cases hcur : current ∈ s.visited
    · simp only [if_pos hcur]
      refine ⟨hcl, hv, hsub, fun u => ?_⟩
      simp only [List.mem_append, List.mem_singleton]
      constructor
      · intro hm; exact Or.inl ((hiff u).mp hm)
      · rintro (hm | hm)
        · exact (hiff u).mpr hm
        · subst hm; exact hcur
    · simp only [if_neg hcur]
      have hclcur : current ∉ s.callLog := fun hc => hcur (hsub current hc)
      have hbase :
          ∀ t : CrawlState,
            t.callLog = s.callLog ++ [current] → t.visited = setAdd s.visited current →
            t.popLog = s.popLog ++ [current] → CrawlInv t := by
        intro t htc htv htp
        rw [setAdd, if_neg hcur] at htv
        refine ⟨?_, ?_, ?_, ?_⟩
        · rw [htc]
          exact List.Nodup.append hcl (List.nodup_singleton current)
            (by simpa using hclcur)
        · rw [htv]
          exact List.Nodup.append hv (List.nodup_singleton current) (by simpa using hcur)
        · intro u hu
          rw [htc] at hu
          rw [htv]
          rcases List.mem_append.mp hu with hu | hu
          · exact List.mem_append.mpr (Or.inl (hsub u hu))
          · exact List.mem_append.mpr (Or.inr hu)
        · intro u
          rw [htv, htp]
          simp only [List.mem_append, List.mem_singleton]
          constructor
          · rintro (hm | hm)
            · exact Or.inl ((hiff u).mp hm)
            · exact Or.inr hm
          · rintro (hm | hm)
            · exact Or.inl ((hiff u).mpr hm)
            · exact Or.inr hm
      split
      · split
        · apply hbase <;>
            simp [applyFetch_callLog, applyFetch_visited, applyFetch_popLog]
        · apply hbase <;>
            simp [applyFetch_callLog, applyFetch_visited, applyFetch_popLog]
      · apply hbase <;>
          simp [applyFetch_callLog, applyFetch_visited, applyFetch_popLog]

theorem crawlRun_inv (w : CrawlWorld) (batchSize maxPages : Nat) :
    ∀ (fuel : Nat) (s : CrawlState), CrawlInv s →
      CrawlInv (crawlRun w batchSize maxPages fuel s)
  | 0, _, h => h
  | fuel + 1, s, h => by
    rw [crawlRun]
    split
    · exact h
    · exact crawlRun_inv w batchSize maxPages fuel _ (crawlStep_inv w batchSize s h)

/-- C1: starting `scrape_website` fresh from the base URL, however long the
loop runs and whatever the fetch outcomes: no URL is ever passed to
`get_page_content` twice (the call log is duplicate-free), every processed
URL is in the visited set, each visited URL was added exactly once (the
visited list is duplicate-free), and the visited set is exactly the set of
distinct URLs popped from the pending queue — a popped URL already in
`visited_urls` is discarded without processing. -/
theorem C1_exactly_once (w : CrawlWorld) (batchSize maxPages fuel : Nat) (baseUrl : PyStr) :
    (crawlRun w batchSize maxPages fuel (initState baseUrl)).callLog.Nodup ∧
    (crawlRun w batchSize maxPages fuel (initState baseUrl)).visited.Nodup ∧
    (∀ u ∈ (crawlRun w batchSize maxPages fuel (initState baseUrl)).callLog,
      u ∈ (crawlRun w batchSize maxPages fuel (initState baseUrl)).visited) ∧
    (∀ u, u ∈ (crawlRun w batchSize maxPages fuel (initState baseUrl)).visited ↔
      u ∈ (crawlRun w batchSize maxPages fuel (initState baseUrl)).popLog) := by
  have h0 : CrawlInv (initState baseUrl) := by
    refine ⟨List.nodup_nil, List.nodup_nil, ?_, ?_⟩
    · intro u hu; simp [initState] at hu
    · intro u; simp [initState]
  exact crawlRun_inv w batchSize maxPages fuel (initState baseUrl) h0

/-! ## Claim C7: output ordering of the per-language documents -/

theorem ltIrrefl_of_asymm (lt : α → α → Bool) (hasymm : LtAsymm lt) (a : α) :
    lt a a = false := by
  cases h : lt a a
  · rfl
  · have h2 := hasymm a a h
    rw [h] at h2
    exact h2

theorem keyPairLt_trans : LtTrans keyPairLt := by
  intro a b c hab hbc
  rw [keyPairLt] at hab hbc ⊢
  by_cases h1 : a.1 < b.1
  · by_cases h2 : b.1 < c.1
    · rw [if_pos (by exact decide_eq_true (by omega))]
    · rw [if_neg (by simpa using h2)] at hbc
      by_cases h3 : c.1 < b.1
      · rw [if_pos (by simpa using h3)] at hbc; exact absurd hbc (by simp)
      · rw [if_pos (by exact decide_eq_true (by omega))]
  · rw [if_neg (by simpa using h1)] at hab
    by_cases h2 : b.1 < a.1
    · rw [if_pos (by simpa using h2)] at hab; exact absurd hab (by simp)
    · rw [if_neg (by simpa using h2)] at hab
      have hk : a.1 = b.1 := by omega
      by_cases h3 : b.1 < c.1
      · rw [if_pos (by exact decide_eq_true (by omega))]
      · rw [if_neg (by simpa using h3)] at hbc
        by_cases h4 : c.1 < b.1
        · rw [if_pos (by simpa using h4)] at hbc; exact absurd hbc (by simp)
        · rw [if_neg (by simpa using h4)] at hbc
          rw [if_neg (by simp; omega), if_neg (by simp; omega)]
          exact pyStrLt_trans a.2 b.2 c.2 hab hbc

theorem keyPairLt_asymm : LtAsymm keyPairLt := by
  intro a b hab
  rw [keyPairLt] at hab ⊢
  by_cases h1 : a.1 < b.1
  · rw [if_neg (by simp; omega), if_pos (by simpa using h1)]
  · rw [if_neg (by simpa using h1)] at hab
    by_cases h2 : b.1 < a.1
    · rw [if_pos (by simpa using h2)] at hab; exact absurd hab (by simp)
    · rw [if_neg (by simpa using h2)] at hab
      rw [if_neg (by simpa using h2), if_neg (by simpa using h1)]
      exact pyStrLt_asymm a.2 b.2 hab

theorem keyPairLt_conn : LtConn keyPairLt := by
  intro a b hab hba
  rw [keyPairLt] at hab hba
  by_cases h1 : a.1 < b.1
  · rw [if_pos (by simpa using h1)] at hab; exact absurd hab (by simp)
  · by_cases h2 : b.1 < a.1
    · rw [if_pos (by simpa using h2)] at hba; exact absurd hba (by simp)
    · rw [if_neg (by simpa using h1), if_neg (by simpa using h2)] at hab
      rw [if_neg (by simpa using h2), if_neg (by simpa using h1)] at hba
      exact Prod.ext (by omega) (pyStrLt_conn a.2 b.2 hab hba)

/-- C7 counterexample (refuting "a deterministic total order not dependent on
insertion order"): two distinct records with identical sort key (score 5,
category `"news"`) keep their insertion order under
`sorted(..., reverse=True)`, so the output order depends on the input
order. -/
theorem C7_insertion_order_counterexample :
    sortedByImportance
        [⟨pyOfString "A", ⟨none, some (pyOfString "news"), none, none, some 5⟩⟩,
          ⟨pyOfString "B", ⟨none, some (pyOfString "news"), none, none, some 5⟩⟩] ≠
      sortedByImportance
        [⟨pyOfString "B", ⟨none, some (pyOfString "news"), none, none, some 5⟩⟩,
          ⟨pyOfString "A", ⟨none, some (pyOfString "news"), none, none, some 5⟩⟩] ∧
    (sortedByImportance
        [⟨pyOfString "A", ⟨none, some (pyOfString "news"), none, none, some 5⟩⟩,
          ⟨pyOfString "B", ⟨none, some (pyOfString "news"), none, none, some 5⟩⟩]).Perm
      (sortedByImportance
        [⟨pyOfString "B", ⟨none, some (pyOfString "news"), none, none, some 5⟩⟩,
          ⟨pyOfString "A", ⟨none, some (pyOfString "news"), none, none, some 5⟩⟩]) := by
  constructor
  · decide
  · decide

/-- C7 amended: the sections are sorted by `(importance_score, category)`
descending; the sort is a permutation of the bucket; records with *equal*
score and category keep their insertion order (Python's sort is stable), so
the order is total only on the sort keys, not on records; on the example
bucket with scores `[3, 9, 9]` and categories `["news", "tourism",
"gallery"]` both score-9 records precede the score-3 record and `"tourism"`
precedes `"gallery"`. -/
theorem C7_sort_amended :
    (∀ l : List SavedRecord, (sortedByImportance l).Perm l) ∧
    (∀ l : List SavedRecord,
      (sortedByImportance l).Pairwise fun a b => recKeyLt a b = false) ∧
    (∀ (l : List SavedRecord) (k : Int × PyStr),
      (sortedByImportance l).filter (fun r => decide (sortKey r = k)) =
        l.filter fun r => decide (sortKey r = k)) ∧
    sortedByImportance
        [⟨pyOfString "n", ⟨none, some (pyOfString "news"), none, none, some 3⟩⟩,
          ⟨pyOfString "t", ⟨none, some (pyOfString "tourism"), none, none, some 9⟩⟩,
          ⟨pyOfString "g", ⟨none, some (pyOfString "gallery"), none, none, some 9⟩⟩] =
      [⟨pyOfString "t", ⟨none, some (pyOfString "tourism"), none, none, some 9⟩⟩,
        ⟨pyOfString "g", ⟨none, some (pyOfString "gallery"), none, none, some 9⟩⟩,
        ⟨pyOfString "n", ⟨none, some (pyOfString "news"), none, none, some 3⟩⟩] := by
  have hasymmR : LtAsymm (fun a b : SavedRecord => recKeyLt b a) := by
    intro a b hab
    exact keyPairLt_asymm _ _ hab
  have hstepR : LtStep (fun a b : SavedRecord => recKeyLt b a) := by
    intro x y z hzx
    rcases ltStep_of keyPairLt keyPairLt_trans keyPairLt_conn
        (sortKey z) (sortKey y) (sortKey x) hzx with h | h
    · exact Or.inr h
    · exact Or.inl h
  refine ⟨?_, ?_, ?_, by decide⟩
  · intro l
    exact pySorted_perm _ l
  · intro l
    exact pySorted_pairwise _ hasymmR hstepR l
  · intro l k
    refine pySorted_filter_key _ sortKey ?_ l k
    intro a b hab
    show recKeyLt b a = false
    rw [recKeyLt, hab]
    exact ltIrrefl_of_asymm keyPairLt keyPairLt_asymm _

/-! ## URL decomposition lemmas -/

theorem isSchemeChar_facts (c : Nat) (h : isSchemeChar c = true) :
    c ≠ 58 ∧ c ≠ 47 ∧ c ≠ 63 ∧ c ≠ 35 ∧ c ≠ 9 ∧ c ≠ 13 ∧ c ≠ 10 := by
  simp [isSchemeChar, isAlphaCp, isUpperCp, isLowerCp, isDigitCp] at h
  omega

theorem validScheme_all (s : PyStr) (h : validScheme s = true) :
    ∀ c ∈ s, isSchemeChar c = true := by
  cases s with
  | nil => simp [validScheme] at h
  | cons c cs =>
    rw [validScheme] at h
    simp only [Bool.and_eq_true, List.all_eq_true] at h
    exact fun d hd => h.2 d hd

theorem removeUnsafe_eq_self (l : PyStr) (h : ∀ c ∈ l, ¬(c = 9 ∨ c = 13 ∨ c = 10)) :
    removeUnsafe l = l := by
  rw [removeUnsafe, List.filter_eq_self]
  intro a ha
  have ha2 := h a ha
  simp at ha2 ⊢
  exact ⟨⟨ha2.1, ha2.2.1⟩, ha2.2.2⟩

theorem lowerAscii_mem (s : PyStr) (hall : ∀ c ∈ s, isSchemeChar c = true) :
    ∀ c ∈ lowerAscii s,
      c ≠ 47 ∧ c ≠ 58 ∧ c ≠ 63 ∧ c ≠ 35 ∧ c ≠ 9 ∧ c ≠ 13 ∧ c ≠ 10 := by
  intro c hc
  rw [lowerAscii, List.mem_map] at hc
  obtain ⟨d, hd, hdc⟩ := hc
  have hsc := hall d hd
  subst hdc
  by_cases hu : isUpperCp d = true
  · rw [if_pos hu]
    simp [isUpperCp] at hu
    omega
  · rw [if_neg hu]
    have hf := isSchemeChar_facts d hsc
    exact ⟨hf.2.1, hf.1, hf.2.2.1, hf.2.2.2.1, hf.2.2.2.2.1, hf.2.2.2.2.2.1,
      hf.2.2.2.2.2.2⟩

/-- The main decomposition fact: `urlsplit` of a well-formed rebuilt URL
recovers its components. -/
theorem urlsplit_build (s n p q : PyStr) (withQ : Bool)
    (hs : validScheme s = true)
    (hn : ∀ c ∈ n, c ≠ 47 ∧ c ≠ 63 ∧ c ≠ 35 ∧ c ≠ 9 ∧ c ≠ 13 ∧ c ≠ 10)
    (hp0 : p = [] ∨ p.head? = some 47)
    (hp : ∀ c ∈ p, c ≠ 63 ∧ c ≠ 35 ∧ c ≠ 9 ∧ c ≠ 13 ∧ c ≠ 10)
    (hq : ∀ c ∈ q, c ≠ 35 ∧ c ≠ 9 ∧ c ≠ 13 ∧ c ≠ 10) :
    urlsplit (s ++ [58, 47, 47] ++ n ++ p ++ (if withQ then 63 :: q else [])) =
      ⟨lowerAscii s, n, p, if withQ then q else [], []⟩ := by
  have hsall := validScheme_all s hs
  have hscol : 58 ∉ s := fun hm => (isSchemeChar_facts _ (hsall _ hm)).1 rfl
  have hclean :
      removeUnsafe (s ++ [58, 47, 47] ++ n ++ p ++ (if withQ then 63 :: q else [])) =
        s ++ [58, 47, 47] ++ n ++ p ++ (if withQ then 63 :: q else []) := by
    apply removeUnsafe_eq_self
    intro c hc
    intro habs
    simp only [List.append_assoc, List.mem_append] at hc
    rcases hc with hc | hc | hc | hc
    · have := isSchemeChar_facts c (hsall c hc); omega
    · simp at hc; omega
    · have := hn c hc; omega
    · rcases hc with hc | hc
      · have := hp c hc; omega
      · cases withQ with
        | true =>
          simp at hc
          rcases hc with hc | hc
          · omega
          · have := hq c hc; omega
        | false => simp at hc
  have hbr : breakAt 58 (s ++ [58, 47, 47] ++ n ++ p ++ (if withQ then 63 :: q else [])) =
      some (s, [47, 47] ++ n ++ p ++ (if withQ then 63 :: q else [])) := by
    have hshape :
        s ++ [58, 47, 47] ++ n ++ p ++ (if withQ then 63 :: q else []) =
          s ++ 58 :: ([47, 47] ++ n ++ p ++ (if withQ then 63 :: q else [])) := by
      simp
    rw [hshape, breakAt_append 58 s _ hscol]
  have hspan : spanUntil [47, 63, 35] (n ++ (p ++ (if withQ then 63 :: q else []))) =
      (n, p ++ (if withQ then 63 :: q else [])) := by
    apply spanUntil_append
    · intro x hx
      have := hn x hx
      simp
      omega
    · intro x hx
      rcases hp0 with hp0 | hp0
      · subst hp0
        cases withQ with
        | true => simp at hx; simp [hx]
        | false => simp at hx
      · cases p with
        | nil => simp at hp0
        | cons a as =>
          simp at hp0
          subst hp0
          simp at hx
          simp [hx]
  have hfrag : breakAt 35 (p ++ (if withQ then 63 :: q else [])) = none := by
    rw [breakAt_eq_none]
    intro hm
    rcases List.mem_append.mp hm with hm | hm
    · exact (hp 35 hm).2.1 rfl
    · cases withQ with
      | true =>
        rw [if_pos rfl] at hm
        rcases List.mem_cons.mp hm with hm | hm
        · exact absurd hm (by decide)
        · exact (hq 35 hm).1 rfl
      | false =>
        rw [if_neg (by simp)] at hm
        simp at hm
  have hquery :
      (match breakAt 63 (p ++ (if withQ then 63 :: q else [])) with
        | some pr => pr
        | none => (p ++ (if withQ then 63 :: q else []), [])) =
        (p, if withQ then q else []) := by
    have hp63 : 63 ∉ p := fun hm => (hp 63 hm).1 rfl
    cases withQ with
    | true =>
      rw [if_pos rfl, if_pos rfl, breakAt_append 63 p q hp63]
    | false =>
      rw [if_neg (by simp), if_neg (by simp)]
      have hnone : breakAt 63 (p ++ ([] : PyStr)) = none := by
        rw [breakAt_eq_none]
        simpa using hp63
      rw [hnone]
      simp
  rw [urlsplit, hclean, hbr]
  simp only [hs, if_true]
  have htk : ([47, 47] ++ n ++ p ++ (if withQ then 63 :: q else [])).take 2 = [47, 47] := rfl
  have hdr : ([47, 47] ++ n ++ p ++ (if withQ then 63 :: q else [])).drop 2 =
      n ++ (p ++ (if withQ then 63 :: q else [])) := by simp
  rw [htk, if_pos rfl, hdr, hspan]
  simp only [hfrag]
  simp only [hquery]

theorem splitparams_no_semi (p : PyStr) (h : 59 ∉ p) : splitparams p = (p, []) := by
  rw [splitparams, if_neg h]

theorem splitparams_snoc_slash (p : PyStr) : splitparams (p ++ [47]) = (p ++ [47], []) := by
  by_cases h59 : 59 ∈ p ++ [47]
  · rw [splitparams, if_pos h59, if_pos (by simp : 47 ∈ p ++ [47])]
    have hb : breakAtLast 47 (p ++ [47]) = some (p, []) := by
      have : p ++ [47] = p ++ 47 :: ([] : PyStr) := rfl
      rw [this, breakAtLast_append 47 p [] (by simp)]
    rw [hb]
    simp [breakAt]
  · exact splitparams_no_semi _ h59

/-- `urlparse` of a well-formed rebuilt URL whose path needs no params
split. -/
theorem urlparse_build (s n p q : PyStr) (withQ : Bool)
    (hs : validScheme s = true)
    (hn : ∀ c ∈ n, c ≠ 47 ∧ c ≠ 63 ∧ c ≠ 35 ∧ c ≠ 9 ∧ c ≠ 13 ∧ c ≠ 10)
    (hp0 : p = [] ∨ p.head? = some 47)
    (hp : ∀ c ∈ p, c ≠ 63 ∧ c ≠ 35 ∧ c ≠ 9 ∧ c ≠ 13 ∧ c ≠ 10)
    (hq : ∀ c ∈ q, c ≠ 35 ∧ c ≠ 9 ∧ c ≠ 13 ∧ c ≠ 10)
    (hps : splitparams p = (p, [])) :
    urlparse (s ++ [58, 47, 47] ++ n ++ p ++ (if withQ then 63 :: q else [])) =
      ⟨lowerAscii s, n, p, [], if withQ then q else [], []⟩ := by
  rw [urlparse, urlsplit_build s n p q withQ hs hn hp0 hp hq]
  simp [hps]

/-! ## Claim C2: trailing slash handling in `normalize_url` -/

theorem getLast?_append_right (a b : PyStr) (y : Nat) (h : b.getLast? = some y) :
    (a ++ b).getLast? = some y := by
  rw [List.getLast?_append, h]
  rfl

theorem normalize_of_parse_noquery (u S N P PRM F : PyStr)
    (h : urlparse u = ⟨S, N, P, PRM, [], F⟩) :
    normalize_url u =
      if (S ++ [58, 47, 47] ++ N ++ P).getLast? = some 47 ∧
          3 < (S ++ [58, 47, 47] ++ N ++ P).count 47
      then (S ++ [58, 47, 47] ++ N ++ P).dropLast
      else S ++ [58, 47, 47] ++ N ++ P := by
  rw [normalize_url, h]
  rfl

/-- C2 counterexample (refuting the "including the case where a query string
follows the path" part): with a query present the normalized string does not
end in `/`, so the trailing-slash strip never fires and the pair normalizes
differently. -/
theorem C2_slash_before_query_counterexample :
    normalize_url (pyOfString "http://h/p/?a=1") ≠
      normalize_url (pyOfString "http://h/p?a=1") ∧
    normalize_url (pyOfString "http://h/p/?a=1") = pyOfString "http://h/p/?a=1" ∧
    normalize_url (pyOfString "http://h/p?a=1") = pyOfString "http://h/p?a=1" := by
  refine ⟨by decide, by decide, by decide⟩

/-- C2 amended: for URLs with a scheme, a nonempty host, no query or
fragment, a path that starts with `/`, does not already end in `/` and needs
no params split, adding a single trailing slash does not change
`normalize_url`; the site root is the exception: both `scheme://host/` and
`scheme://host` are returned unchanged (so the root keeps its slash).  When
a query string follows the path the slash is preserved and the two URLs
normalize differently (see the counterexample). -/
theorem C2_trailing_slash_amended (s n p : PyStr)
    (hs : validScheme s = true)
    (hnne : n ≠ [])
    (hn : ∀ c ∈ n, c ≠ 47 ∧ c ≠ 63 ∧ c ≠ 35 ∧ c ≠ 9 ∧ c ≠ 13 ∧ c ≠ 10)
    (hp0 : p.head? = some 47)
    (hp : ∀ c ∈ p, c ≠ 63 ∧ c ≠ 35 ∧ c ≠ 9 ∧ c ≠ 13 ∧ c ≠ 10)
    (hpl : p.getLast? ≠ some 47)
    (hps : splitparams p = (p, [])) :
    normalize_url (s ++ [58, 47, 47] ++ n ++ p ++ [47]) =
      normalize_url (s ++ [58, 47, 47] ++ n ++ p) ∧
    normalize_url (s ++ [58, 47, 47] ++ n ++ [47]) =
      lowerAscii s ++ [58, 47, 47] ++ n ++ [47] ∧
    normalize_url (s ++ [58, 47, 47] ++ n) = lowerAscii s ++ [58, 47, 47] ++ n := by
  have hls := lowerAscii_mem s (validScheme_all s hs)
  have hls47 : 47 ∉ lowerAscii s := fun hm => (hls 47 hm).1 rfl
  have hn47 : 47 ∉ n := fun hm => (hn 47 hm).1 rfl
  have hpne : p ≠ [] := by
    intro hx; rw [hx] at hp0; simp at hp0
  have hp47 : 47 ∈ p := by
    cases p with
    | nil => simp at hp0
    | cons a as => simp at hp0; subst hp0; simp
  have hcls : (lowerAscii s).count 47 = 0 := List.count_eq_zero.mpr hls47
  have hcn : n.count 47 = 0 := List.count_eq_zero.mpr hn47
  have hcp : 0 < p.count 47 := List.count_pos_iff.mpr hp47
  refine ⟨?_, ?_, ?_⟩
  · -- the non-root pair
    have h2 := urlparse_build s n (p ++ [47]) [] false hs hn
      (Or.inr (by cases p with | nil => simp at hp0 | cons a as => simpa using hp0))
      (by
        intro c hc
        rcases List.mem_append.mp hc with hc | hc
        · exact hp c hc
        · simp at hc; omega)
      (by intro c hc; simp at hc)
      (splitparams_snoc_slash p)
    have h1 := urlparse_build s n p [] false hs hn (Or.inr hp0) hp
      (by intro c hc; simp at hc) hps
    simp only [Bool.false_eq_true, if_false, List.append_nil] at h1 h2
    rw [show s ++ [58, 47, 47] ++ n ++ p ++ [47] = s ++ [58, 47, 47] ++ n ++ (p ++ [47])
      by simp]
    rw [normalize_of_parse_noquery _ _ _ _ _ _ h2,
      normalize_of_parse_noquery _ _ _ _ _ _ h1]
    have hA2 : lowerAscii s ++ [58, 47, 47] ++ n ++ (p ++ [47]) =
        (lowerAscii s ++ [58, 47, 47] ++ n ++ p) ++ [47] := by simp
    rw [hA2, if_pos ?side1]
    case side1 =>
      constructor
      · exact List.getLast?_concat _
      · have hc2 : List.count 47 ([58, 47, 47] : PyStr) = 2 := by decide
        have hc1 : List.count 47 ([47] : PyStr) = 1 := by decide
        simp only [List.count_append, hc2, hc1, hcls, hcn]
        omega
    rw [List.dropLast_concat]
    rw [if_neg ?side2]
    case side2 =>
      rintro ⟨hl, _⟩
      cases hgl : p.getLast? with
      | none => rw [List.getLast?_eq_none_iff] at hgl; exact hpne hgl
      | some y =>
        have hyl : (lowerAscii s ++ [58, 47, 47] ++ n ++ p).getLast? = some y :=
          getLast?_append_right _ _ _ hgl
        rw [hyl] at hl
        injection hl with hl
        exact hpl (by rw [hgl, hl])
  · -- root with slash: count is exactly 3, no strip
    have h3 := urlparse_build s n [47] [] false hs hn (Or.inr rfl)
      (by intro c hc; simp at hc; omega)
      (by intro c hc; simp at hc)
      (splitparams_no_semi [47] (by decide))
    simp only [Bool.false_eq_true, if_false, List.append_nil] at h3
    rw [normalize_of_parse_noquery _ _ _ _ _ _ h3]
    rw [if_neg ?side3]
    case side3 =>
      rintro ⟨_, hcnt⟩
      have hc2 : List.count 47 ([58, 47, 47] : PyStr) = 2 := by decide
      have hc1 : List.count 47 ([47] : PyStr) = 1 := by decide
      simp only [List.count_append, hc2, hc1, hcls, hcn] at hcnt
      omega
  · -- root without slash: does not end in a slash
    have h4 := urlparse_build s n [] [] false hs hn (Or.inl rfl)
      (by intro c hc; simp at hc)
      (by intro c hc; simp at hc)
      (splitparams_no_semi [] (by decide))
    simp only [Bool.false_eq_true, if_false, List.append_nil] at h4
    rw [normalize_of_parse_noquery _ _ _ _ _ _ h4]
    rw [if_neg ?side4]
    case side4 =>
      rintro ⟨hl, _⟩
      rw [List.append_nil] at hl
      cases hgn : n.getLast? with
      | none => rw [List.getLast?_eq_none_iff] at hgn; exact hnne hgn
      | some y =>
        have hyl : (lowerAscii s ++ [58, 47, 47] ++ n).getLast? = some y :=
          getLast?_append_right _ _ _ hgn
        rw [hyl] at hl
        injection hl with hl
        have hy : y ∈ n := List.mem_of_getLast?_eq_some hgn
        exact (hn y hy).1 hl
    simp

/-- Witness for C2 amended: `http://h/a/` and `http://h/a` normalize to the
same string, while the root pair keeps its slash. -/
theorem C2_trailing_slash_amended_witness :
    normalize_url (pyOfString "http" ++ [58, 47, 47] ++ pyOfString "h" ++
        pyOfString "/a" ++ [47]) =
      normalize_url (pyOfString "http" ++ [58, 47, 47] ++ pyOfString "h" ++
        pyOfString "/a") ∧
    normalize_url (pyOfString "http" ++ [58, 47, 47] ++ pyOfString "h" ++ [47]) =
      pyOfString "http" ++ [58, 47, 47] ++ pyOfString "h" ++ [47] := by
  have h := C2_trailing_slash_amended (pyOfString "http") (pyOfString "h")
    (pyOfString "/a") (by decide) (by decide) (by decide) (by decide) (by decide)
    (by decide) (by decide)
  refine ⟨h.1, ?_⟩
  have h2 := h.2.1
  rw [h2]
  decide

/-! ## Claim C4: query-parameter order does not matter -/

theorem dictAdd_fresh (d : List (PyStr × List PyStr)) (k : PyStr) (v : PyStr)
    (h : k ∉ d.map Prod.fst) : dictAdd d k v = d ++ [(k, [v])] := by
  induction d with
  | nil => rfl
  | cons e rest ih =>
    simp only [List.map_cons, List.mem_cons] at h
    push_neg at h
    rw [dictAdd, if_neg (fun he => h.1 he.symm), ih h.2]
    rfl

theorem foldl_dictAdd (l : List (PyStr × PyStr)) :
    ∀ d : List (PyStr × List PyStr), (l.map Prod.fst).Nodup →
      (∀ k ∈ l.map Prod.fst, k ∉ d.map Prod.fst) →
      l.foldl (fun d kv => dictAdd d kv.1 kv.2) d =
        d ++ l.map fun kv => (kv.1, [kv.2]) := by
  induction l with
  | nil => intro d _ _; simp
  | cons kv rest ih =>
    intro d hnd hdis
    simp only [List.map_cons, List.nodup_cons] at hnd
    have hfresh : kv.1 ∉ d.map Prod.fst := hdis kv.1 (by simp)
    rw [List.foldl_cons, dictAdd_fresh d kv.1 kv.2 hfresh,
      ih (d ++ [(kv.1, [kv.2])]) hnd.2 ?dis]
    · simp
    case dis =>
      intro k hk
      intro hcon
      rw [List.map_append, List.mem_append] at hcon
      rcases hcon with hcon | hcon
      · exact hdis k (by rw [List.map_cons]; exact List.mem_cons.mpr (Or.inr hk)) hcon
      · simp at hcon
        rw [hcon] at hk
        exact hnd.1 hk

theorem parse_qs_of_nodup (qs : PyStr)
    (h : ((parse_qsl qs).map Prod.fst).Nodup) :
    parse_qs qs = (parse_qsl qs).map fun kv => (kv.1, [kv.2]) := by
  rw [parse_qs]
  have := foldl_dictAdd (parse_qsl qs) [] h (by simp)
  simpa using this

/-- C4: two URLs that are identical except for the order of their
query-string key/value pairs (distinct keys; blank values are preserved by
`keep_blank_values=True`) normalize to the same string: `parse_qs` groups
the same pairs, `sorted` orders them identically, and `urlencode` re-emits
the same query. -/
theorem C4_query_order (u1 u2 : PyStr)
    (hs : (urlparse u1).scheme = (urlparse u2).scheme)
    (hn : (urlparse u1).netloc = (urlparse u2).netloc)
    (hp : (urlparse u1).path = (urlparse u2).path)
    (hq1 : (urlparse u1).query ≠ []) (hq2 : (urlparse u2).query ≠ [])
    (hperm : (parse_qsl (urlparse u1).query).Perm (parse_qsl (urlparse u2).query))
    (hkeys : ((parse_qsl (urlparse u1).query).map Prod.fst).Nodup) :
    normalize_url u1 = normalize_url u2 := by
  have hkeys2 : ((parse_qsl (urlparse u2).query).map Prod.fst).Nodup :=
    ((hperm.map Prod.fst).nodup_iff).mp hkeys
  have hpq : (parse_qs (urlparse u1).query).Perm (parse_qs (urlparse u2).query) := by
    rw [parse_qs_of_nodup _ hkeys, parse_qs_of_nodup _ hkeys2]
    exact hperm.map _
  have hsort : pySorted qitemLt (parse_qs (urlparse u1).query) =
      pySorted qitemLt (parse_qs (urlparse u2).query) :=
    pySorted_eq_of_perm qitemLt qitemLt_asymm
      (ltStep_of qitemLt qitemLt_trans qitemLt_conn) qitemLt_conn _ _ hpq
  have he1 : (urlparse u1).query.isEmpty = false := by
    cases hql : (urlparse u1).query with
    | nil => exact absurd hql hq1
    | cons a as => rfl
  have he2 : (urlparse u2).query.isEmpty = false := by
    cases hql : (urlparse u2).query with
    | nil => exact absurd hql hq2
    | cons a as => rfl
  simp only [normalize_url, he1, he2, Bool.false_eq_true, if_false, hs, hn, hp, hsort]

/-- Witness for C4: `/p?b=2&a=1&c=` and `/p?c=&a=1&b=2` (same pairs in a
different order, one blank value) normalize identically. -/
theorem C4_query_order_witness :
    normalize_url (pyOfString "http://h/p?b=2&a=1&c=") =
      normalize_url (pyOfString "http://h/p?c=&a=1&b=2") ∧
    normalize_url (pyOfString "http://h/p?b=2&a=1&c=") =
      pyOfString "http://h/p?a=1&b=2&c=" := by
  constructor
  · exact C4_query_order (pyOfString "http://h/p?b=2&a=1&c=")
      (pyOfString "http://h/p?c=&a=1&b=2") (by decide) (by decide) (by decide)
      (by decide) (by decide) (by decide) (by decide)
  · decide

/-! ## Claim C3: idempotence of `normalize_url` — percent-coding roundtrip -/

theorem hexDigit_isHex (m : Nat) (h : m < 16) : isHexDigit (hexDigit m) = true := by
  rw [hexDigit]
  by_cases hm : m < 10
  · rw [if_pos hm]
    simp [isHexDigit]
    omega
  · rw [if_neg hm]
    simp [isHexDigit]
    omega

theorem hexVal_hexDigit (m : Nat) (h : m < 16) : hexVal (hexDigit m) = m := by
  rw [hexDigit, hexVal]
  by_cases hm : m < 10
  · rw [if_pos hm, if_pos (by omega)]
    omega
  · rw [if_neg hm]
    rw [if_neg (by omega), if_pos (by omega)]
    omega

theorem hexDigit_ne (m : Nat) (h : m < 16) :
    hexDigit m ≠ 37 ∧ hexDigit m ≠ 43 ∧ hexDigit m ≠ 38 ∧ hexDigit m ≠ 61 ∧
      hexDigit m ≠ 47 ∧ hexDigit m ≠ 35 ∧ hexDigit m ≠ 63 ∧ hexDigit m ≠ 9 ∧
      hexDigit m ≠ 13 ∧ hexDigit m ≠ 10 := by
  rw [hexDigit]
  by_cases hm : m < 10
  · rw [if_pos hm]; omega
  · rw [if_neg hm]; omega

/-- Decoding an encoded scalar value in front of any byte tail yields the
scalar value followed by the decoded tail. -/
theorem utf8_decode_encode (c : Nat) (h : ValidCp c) (bs : List Nat) :
    utf8Decode (utf8EncodeCp c ++ bs) = c :: utf8Decode bs := by
  obtain ⟨hlt, hsur⟩ := h
  by_cases h1 : c < 0x80
  · have he : utf8EncodeCp c = [c] := by rw [utf8EncodeCp, if_pos h1]
    rw [he]
    show utf8Decode (c :: bs) = c :: utf8Decode bs
    match bs with
    | [] =>
      rw [utf8Decode.eq_def]
      simp only
      rw [if_pos h1]
      rfl
    | [x] =>
      rw [utf8Decode.eq_def]
      simp only
      rw [if_pos h1]
    | [x, y] =>
      rw [utf8Decode.eq_def]
      simp only
      rw [if_pos h1]
    | x :: y :: z :: t =>
      rw [utf8Decode.eq_def]
      simp only
      rw [if_pos h1]
  · by_cases h2 : c < 0x800
    · have he : utf8EncodeCp c = [0xC0 + c / 0x40, 0x80 + c % 0x40] := by
        rw [utf8EncodeCp, if_neg h1, if_pos h2]
      rw [he]
      show utf8Decode ((0xC0 + c / 0x40) :: (0x80 + c % 0x40) :: bs) = c :: utf8Decode bs
      match bs with
      | [] =>
        rw [utf8Decode.eq_def]
        simp only
        rw [if_neg (show ¬(0xC0 + c / 0x40 < 0x80) by omega),
          if_neg (show ¬(0xC0 + c / 0x40 < 0xC2) by omega),
          if_pos (show 0xC0 + c / 0x40 < 0xE0 by omega),
          if_pos (show 0x80 ≤ 0x80 + c % 0x40 ∧ 0x80 + c % 0x40 < 0xC0 by omega),
          show (0xC0 + c / 0x40 - 0xC0) * 0x40 + (0x80 + c % 0x40 - 0x80) = c by omega]
        rfl
      | [x] =>
        rw [utf8Decode.eq_def]
        simp only
        rw [if_neg (show ¬(0xC0 + c / 0x40 < 0x80) by omega),
          if_neg (show ¬(0xC0 + c / 0x40 < 0xC2) by omega),
          if_pos (show 0xC0 + c / 0x40 < 0xE0 by omega),
          if_pos (show 0x80 ≤ 0x80 + c % 0x40 ∧ 0x80 + c % 0x40 < 0xC0 by omega),
          show (0xC0 + c / 0x40 - 0xC0) * 0x40 + (0x80 + c % 0x40 - 0x80) = c by omega]
      | x :: y :: t =>
        rw [utf8Decode.eq_def]
        simp only
        rw [if_neg (show ¬(0xC0 + c / 0x40 < 0x80) by omega),
          if_neg (show ¬(0xC0 + c / 0x40 < 0xC2) by omega),
          if_pos (show 0xC0 + c / 0x40 < 0xE0 by omega),
          if_pos (show 0x80 ≤ 0x80 + c % 0x40 ∧ 0x80 + c % 0x40 < 0xC0 by omega),
          show (0xC0 + c / 0x40 - 0xC0) * 0x40 + (0x80 + c % 0x40 - 0x80) = c by omega]
    · by_cases h3 : c < 0x10000
      · have he : utf8EncodeCp c =
            [0xE0 + c / 0x1000, 0x80 + c / 0x40 % 0x40, 0x80 + c % 0x40] := by
          rw [utf8EncodeCp, if_neg h1, if_neg h2, if_pos h3]
        rw [he]
        show utf8Decode ((0xE0 + c / 0x1000) :: (0x80 + c / 0x40 % 0x40) ::
          (0x80 + c % 0x40) :: bs) = c :: utf8Decode bs
        match bs with
        | [] =>
          rw [utf8Decode.eq_def]
          simp only
          rw [if_neg (show ¬(0xE0 + c / 0x1000 < 0x80) by omega),
            if_neg (show ¬(0xE0 + c / 0x1000 < 0xC2) by omega),
            if_neg (show ¬(0xE0 + c / 0x1000 < 0xE0) by omega),
            if_pos (show 0xE0 + c / 0x1000 < 0xF0 by omega),
            if_pos (show (0x80 ≤ 0x80 + c / 0x40 % 0x40 ∧ 0x80 + c / 0x40 % 0x40 < 0xC0) ∧
                (0x80 ≤ 0x80 + c % 0x40 ∧ 0x80 + c % 0x40 < 0xC0) ∧
                (0xE0 + c / 0x1000 = 0xE0 → 0xA0 ≤ 0x80 + c / 0x40 % 0x40) ∧
                (0xE0 + c / 0x1000 = 0xED → 0x80 + c / 0x40 % 0x40 < 0xA0) by omega),
            show (0xE0 + c / 0x1000 - 0xE0) * 0x1000 + (0x80 + c / 0x40 % 0x40 - 0x80) * 0x40 +
                (0x80 + c % 0x40 - 0x80) = c by omega]
          rfl
        | x :: t =>
          rw [utf8Decode.eq_def]
          simp only
          rw [if_neg (show ¬(0xE0 + c / 0x1000 < 0x80) by omega),
            if_neg (show ¬(0xE0 + c / 0x1000 < 0xC2) by omega),
            if_neg (show ¬(0xE0 + c / 0x1000 < 0xE0) by omega),
            if_pos (show 0xE0 + c / 0x1000 < 0xF0 by omega),
            if_pos (show (0x80 ≤ 0x80 + c / 0x40 % 0x40 ∧ 0x80 + c / 0x40 % 0x40 < 0xC0) ∧
                (0x80 ≤ 0x80 + c % 0x40 ∧ 0x80 + c % 0x40 < 0xC0) ∧
                (0xE0 + c / 0x1000 = 0xE0 → 0xA0 ≤ 0x80 + c / 0x40 % 0x40) ∧
                (0xE0 + c / 0x1000 = 0xED → 0x80 + c / 0x40 % 0x40 < 0xA0) by omega),
            show (0xE0 + c / 0x1000 - 0xE0) * 0x1000 + (0x80 + c / 0x40 % 0x40 - 0x80) * 0x40 +
                (0x80 + c % 0x40 - 0x80) = c by omega]
      · have he : utf8EncodeCp c =
            [0xF0 + c / 0x40000, 0x80 + c / 0x1000 % 0x40, 0x80 + c / 0x40 % 0x40,
              0x80 + c % 0x40] := by
          rw [utf8EncodeCp, if_neg h1, if_neg h2, if_neg h3]
        rw [he]
        show utf8Decode ((0xF0 + c / 0x40000) :: (0x80 + c / 0x1000 % 0x40) ::
          (0x80 + c / 0x40 % 0x40) :: (0x80 + c % 0x40) :: bs) = c :: utf8Decode bs
        rw [utf8Decode.eq_def]
        simp only
        rw [if_neg (show ¬(0xF0 + c / 0x40000 < 0x80) by omega),
          if_neg (show ¬(0xF0 + c / 0x40000 < 0xC2) by omega),
          if_neg (show ¬(0xF0 + c / 0x40000 < 0xE0) by omega),
          if_neg (show ¬(0xF0 + c / 0x40000 < 0xF0) by omega),
          if_pos (show 0xF0 + c / 0x40000 < 0xF5 by omega),
          if_pos (show (0x80 ≤ 0x80 + c / 0x1000 % 0x40 ∧ 0x80 + c / 0x1000 % 0x40 < 0xC0) ∧
              (0x80 ≤ 0x80 + c / 0x40 % 0x40 ∧ 0x80 + c / 0x40 % 0x40 < 0xC0) ∧
              (0x80 ≤ 0x80 + c % 0x40 ∧ 0x80 + c % 0x40 < 0xC0) ∧
              (0xF0 + c / 0x40000 = 0xF0 → 0x90 ≤ 0x80 + c / 0x1000 % 0x40) ∧
              (0xF0 + c / 0x40000 = 0xF4 → 0x80 + c / 0x1000 % 0x40 < 0x90) by omega),
          show (0xF0 + c / 0x40000 - 0xF0) * 0x40000 + (0x80 + c / 0x1000 % 0x40 - 0x80) *
              0x1000 + (0x80 + c / 0x40 % 0x40 - 0x80) * 0x40 + (0x80 + c % 0x40 - 0x80) = c
            by omega]

theorem utf8EncodeCp_lt (c : Nat) (h : c < 0x110000) : ∀ b ∈ utf8EncodeCp c, b < 256 := by
  intro b hb
  rw [utf8EncodeCp] at hb
  split_ifs at hb with h1 h2 h3 <;> simp at hb <;> omega

theorem utf8Decode_valid (bs : List Nat) : ValidStr (utf8Decode bs) := by
  induction bs using utf8Decode.induct with
  | case1 =>
    intro c hc
    rw [utf8Decode.eq_def] at hc
    simp at hc
  | case2 b h1 =>
    intro c hc
    rw [utf8Decode.eq_def] at hc
    simp only at hc
    rw [if_pos h1] at hc
    simp only [List.mem_singleton] at hc
    exact ⟨by omega, by omega⟩
  | case3 b h1 =>
    intro c hc
    rw [utf8Decode.eq_def] at hc
    simp only at hc
    rw [if_neg h1] at hc
    simp only [List.mem_singleton] at hc
    exact ⟨by omega, by omega⟩
  | case4 b b1 h1 ih =>
    intro c hc
    rw [utf8Decode.eq_def] at hc
    simp only at hc
    rw [if_pos h1] at hc
    rcases List.mem_cons.mp hc with hce | hc
    · exact ⟨by omega, by omega⟩
    · exact ih c hc
  | case5 b b1 h1 h2 ih =>
    intro c hc
    rw [utf8Decode.eq_def] at hc
    simp only at hc
    rw [if_neg h1, if_pos h2] at hc
    rcases List.mem_cons.mp hc with hce | hc
    · exact ⟨by omega, by omega⟩
    · exact ih c hc
  | case6 b b1 h1 h2 h3 hcond =>
    intro c hc
    rw [utf8Decode.eq_def] at hc
    simp only at hc
    rw [if_neg h1, if_neg h2, if_pos h3, if_pos hcond] at hc
    simp only [List.mem_singleton] at hc
    exact ⟨by omega, by omega⟩
  | case7 b b1 h1 h2 h3 hcond ih =>
    intro c hc
    rw [utf8Decode.eq_def] at hc
    simp only at hc
    rw [if_neg h1, if_neg h2, if_pos h3, if_neg hcond] at hc
    rcases List.mem_cons.mp hc with hce | hc
    · exact ⟨by omega, by omega⟩
    · exact ih c hc
  | case8 b b1 h1 h2 h3 ih =>
    intro c hc
    rw [utf8Decode.eq_def] at hc
    simp only at hc
    rw [if_neg h1, if_neg h2, if_neg h3] at hc
    rcases List.mem_cons.mp hc with hce | hc
    · exact ⟨by omega, by omega⟩
    · exact ih c hc
  | case9 b b1 b2 h1 ih =>
    intro c hc
    rw [utf8Decode.eq_def] at hc
    simp only at hc
    rw [if_pos h1] at hc
    rcases List.mem_cons.mp hc with hce | hc
    · exact ⟨by omega, by omega⟩
    · exact ih c hc
  | case10 b b1 b2 h1 h2 ih =>
    intro c hc
    rw [utf8Decode.eq_def] at hc
    simp only at hc
    rw [if_neg h1, if_pos h2] at hc
    rcases List.mem_cons.mp hc with hce | hc
    · exact ⟨by omega, by omega⟩
    · exact ih c hc
  | case11 b b1 b2 h1 h2 h3 hcond ih =>
    intro c hc
    rw [utf8Decode.eq_def] at hc
    simp only at hc
    rw [if_neg h1, if_neg h2, if_pos h3, if_pos hcond] at hc
    rcases List.mem_cons.mp hc with hce | hc
    · exact ⟨by omega, by omega⟩
    · exact ih c hc
  | case12 b b1 b2 h1 h2 h3 hcond ih =>
    intro c hc
    rw [utf8Decode.eq_def] at hc
    simp only at hc
    rw [if_neg h1, if_neg h2, if_pos h3, if_neg hcond] at hc
    rcases List.mem_cons.mp hc with hce | hc
    · exact ⟨by omega, by omega⟩
    · exact ih c hc
  | case13 b b1 b2 h1 h2 h3 h4 hcond =>
    intro c hc
    rw [utf8Decode.eq_def] at hc
    simp only at hc
    rw [if_neg h1, if_neg h2, if_neg h3, if_pos h4, if_pos hcond] at hc
    simp only [List.mem_singleton] at hc
    exact ⟨by omega, by omega⟩
  | case14 b b1 b2 h1 h2 h3 h4 hcond ih =>
    intro c hc
    rw [utf8Decode.eq_def] at hc
    simp only at hc
    rw [if_neg h1, if_neg h2, if_neg h3, if_pos h4, if_neg hcond] at hc
    rcases List.mem_cons.mp hc with hce | hc
    · exact ⟨by omega, by omega⟩
    · exact ih c hc
  | case15 b b1 b2 h1 h2 h3 h4 ih =>
    intro c hc
    rw [utf8Decode.eq_def] at hc
    simp only at hc
    rw [if_neg h1, if_neg h2, if_neg h3, if_neg h4] at hc
    rcases List.mem_cons.mp hc with hce | hc
    · exact ⟨by omega, by omega⟩
    · exact ih c hc
  | case16 b b1 b2 b3 bs h1 ih =>
    intro c hc
    rw [utf8Decode.eq_def] at hc
    simp only at hc
    rw [if_pos h1] at hc
    rcases List.mem_cons.mp hc with hce | hc
    · exact ⟨by omega, by omega⟩
    · exact ih c hc
  | case17 b b1 b2 b3 bs h1 h2 ih =>
    intro c hc
    rw [utf8Decode.eq_def] at hc
    simp only at hc
    rw [if_neg h1, if_pos h2] at hc
    rcases List.mem_cons.mp hc with hce | hc
    · exact ⟨by omega, by omega⟩
    · exact ih c hc
  | case18 b b1 b2 b3 bs h1 h2 h3 hcond ih =>
    intro c hc
    rw [utf8Decode.eq_def] at hc
    simp only at hc
    rw [if_neg h1, if_neg h2, if_pos h3, if_pos hcond] at hc
    rcases List.mem_cons.mp hc with hce | hc
    · exact ⟨by omega, by omega⟩
    · exact ih c hc
  | case19 b b1 b2 b3 bs h1 h2 h3 hcond ih =>
    intro c hc
    rw [utf8Decode.eq_def] at hc
    simp only at hc
    rw [if_neg h1, if_neg h2, if_pos h3, if_neg hcond] at hc
    rcases List.mem_cons.mp hc with hce | hc
    · exact ⟨by omega, by omega⟩
    · exact ih c hc
  | case20 b b1 b2 b3 bs h1 h2 h3 h4 hcond ih =>
    intro c hc
    rw [utf8Decode.eq_def] at hc
    simp only at hc
    rw [if_neg h1, if_neg h2, if_neg h3, if_pos h4, if_pos hcond] at hc
    rcases List.mem_cons.mp hc with hce | hc
    · exact ⟨by omega, by omega⟩
    · exact ih c hc
  | case21 b b1 b2 b3 bs h1 h2 h3 h4 hcond ih =>
    intro c hc
    rw [utf8Decode.eq_def] at hc
    simp only at hc
    rw [if_neg h1, if_neg h2, if_neg h3, if_pos h4, if_neg hcond] at hc
    rcases List.mem_cons.mp hc with hce | hc
    · exact ⟨by omega, by omega⟩
    · exact ih c hc
  | case22 b b1 b2 b3 bs h1 h2 h3 h4 h5 hcond ih =>
    intro c hc
    rw [utf8Decode.eq_def] at hc
    simp only at hc
    rw [if_neg h1, if_neg h2, if_neg h3, if_neg h4, if_pos h5, if_pos hcond] at hc
    rcases List.mem_cons.mp hc with hce | hc
    · exact ⟨by omega, by omega⟩
    · exact ih c hc
  | case23 b b1 b2 b3 bs h1 h2 h3 h4 h5 hcond ih =>
    intro c hc
    rw [utf8Decode.eq_def] at hc
    simp only at hc
    rw [if_neg h1, if_neg h2, if_neg h3, if_neg h4, if_pos h5, if_neg hcond] at hc
    rcases List.mem_cons.mp hc with hce | hc
    · exact ⟨by omega, by omega⟩
    · exact ih c hc
  | case24 b b1 b2 b3 bs h1 h2 h3 h4 h5 ih =>
    intro c hc
    rw [utf8Decode.eq_def] at hc
    simp only at hc
    rw [if_neg h1, if_neg h2, if_neg h3, if_neg h4, if_neg h5] at hc
    rcases List.mem_cons.mp hc with hce | hc
    · exact ⟨by omega, by omega⟩
    · exact ih c hc

theorem qTokens_cons_lit (c : Nat) (hc : c ≠ 37) (rest : PyStr) :
    qTokens (c :: rest) = .lit c :: qTokens rest := by
  match rest with
  | [] => rfl
  | [d] => rfl
  | d :: e :: t =>
    rw [qTokens.eq_def]
    simp only
    rw [if_neg hc]

theorem qTokens_pct (b : Nat) (hb : b < 256) (rest : PyStr) :
    qTokens (37 :: hexDigit (b / 16) :: hexDigit (b % 16) :: rest) =
      .byte b :: qTokens rest := by
  rw [qTokens.eq_def]
  simp only
  rw [if_pos trivial,
    if_pos ⟨hexDigit_isHex _ (by omega), hexDigit_isHex _ (by omega)⟩,
    hexVal_hexDigit _ (by omega), hexVal_hexDigit _ (by omega),
    show b / 16 * 16 + b % 16 = b by omega]

theorem regroupF_bytes (bs : List Nat) (ts : List QTok) :
    regroupF (bs.map QTok.byte ++ ts) = (bs ++ (regroupF ts).1, (regroupF ts).2) := by
  induction bs with
  | nil => simp
  | cons b bs ih => simp only [List.map_cons, List.cons_append, regroupF, List.append_eq, ih]

theorem regroupTokens_lit (c : Nat) (ts : List QTok) :
    regroupTokens (.lit c :: ts) = c :: regroupTokens ts := by
  rw [regroupTokens, regroupF]
  rw [show utf8Decode [] = [] from rfl, List.nil_append, regroupTokens]

theorem regroupTokens_bytes (c : Nat) (hv : ValidCp c) (ts : List QTok) :
    regroupTokens ((utf8EncodeCp c).map QTok.byte ++ ts) = c :: regroupTokens ts := by
  rw [regroupTokens, regroupF_bytes]
  simp only
  rw [utf8_decode_encode c hv, regroupTokens]
  simp

theorem alwaysSafe_facts (c : Nat) (h : alwaysSafe c = true) :
    c ≠ 37 ∧ c ≠ 43 ∧ c ≠ 32 ∧ c ≠ 38 ∧ c ≠ 61 ∧ c ≠ 47 ∧ c ≠ 35 ∧ c ≠ 63 ∧
      c ≠ 9 ∧ c ≠ 13 ∧ c ≠ 10 := by
  simp [alwaysSafe, isAlphaCp, isUpperCp, isLowerCp, isDigitCp] at h
  omega

theorem hexDigit_bounds (m : Nat) (h : m < 16) :
    (48 ≤ hexDigit m ∧ hexDigit m ≤ 57) ∨ (65 ≤ hexDigit m ∧ hexDigit m ≤ 70) := by
  rw [hexDigit]
  split_ifs <;> omega

theorem pctFoldr_mem (bs : List Nat) (init : PyStr) :
    ∀ x ∈ bs.foldr (fun b acc => 37 :: hexDigit (b / 16) :: hexDigit (b % 16) :: acc) init,
      (∀ b ∈ bs, b < 256) →
      (x ∈ init ∨ x = 37 ∨ (48 ≤ x ∧ x ≤ 57) ∨ (65 ≤ x ∧ x ≤ 70)) := by
  induction bs with
  | nil => intro x hx _; exact Or.inl hx
  | cons b bs ih =>
    intro x hx hlt
    simp only [List.foldr_cons, List.mem_cons] at hx
    have hb : b < 256 := hlt b (by simp)
    rcases hx with rfl | rfl | rfl | hx
    · exact Or.inr (Or.inl rfl)
    · rcases hexDigit_bounds (b / 16) (by omega) with h | h
      · exact Or.inr (Or.inr (Or.inl h))
      · exact Or.inr (Or.inr (Or.inr h))
    · rcases hexDigit_bounds (b % 16) (by omega) with h | h
      · exact Or.inr (Or.inr (Or.inl h))
      · exact Or.inr (Or.inr (Or.inr h))
    · exact ih x hx (fun y hy => hlt y (List.mem_cons_of_mem _ hy))

theorem quote_plus_mem (s : PyStr) (hv : ValidStr s) :
    ∀ x ∈ quote_plus s, alwaysSafe x = true ∨ x = 43 ∨ x = 37 ∨
      (48 ≤ x ∧ x ≤ 57) ∨ (65 ≤ x ∧ x ≤ 70) := by
  induction s with
  | nil => intro x hx; simp [quote_plus] at hx
  | cons c cs ih =>
    intro x hx
    have hq : quote_plus (c :: cs) = quoteChar c ++ quote_plus cs := rfl
    rw [hq, List.mem_append] at hx
    rcases hx with hx | hx
    · have hvc : ValidCp c := hv c (by simp)
      rw [quoteChar] at hx
      split_ifs at hx with h1 h2
      · simp only [List.mem_singleton] at hx
        subst hx
        exact Or.inl h1
      · simp only [List.mem_singleton] at hx
        subst hx
        exact Or.inr (Or.inl rfl)
      · rcases pctFoldr_mem (utf8EncodeCp c) [] x hx
            (utf8EncodeCp_lt c hvc.1) with h | h
        · simp at h
        · exact Or.inr (Or.inr h)
    · exact ih (fun d hd => hv d (by simp [hd])) x hx

theorem quote_plus_facts (s : PyStr) (hv : ValidStr s) :
    ∀ x ∈ quote_plus s, x ≠ 38 ∧ x ≠ 61 ∧ x ≠ 47 ∧ x ≠ 35 ∧ x ≠ 63 ∧ x ≠ 9 ∧
      x ≠ 13 ∧ x ≠ 10 ∧ x ≠ 32 := by
  intro x hx
  rcases quote_plus_mem s hv x hx with h | h | h | h | h
  · simp [alwaysSafe, isAlphaCp, isUpperCp, isLowerCp, isDigitCp] at h
    omega
  · omega
  · omega
  · omega
  · omega

theorem map_plus_eq_self (l : PyStr) (h : ∀ x ∈ l, x ≠ 43) :
    (l.map fun c => if c = 43 then 32 else c) = l := by
  induction l with
  | nil => rfl
  | cons c cs ih =>
    simp only [List.map_cons]
    rw [if_neg (h c (by simp)), ih (fun x hx => h x (by simp [hx]))]

theorem pctFoldr_append (bs : List Nat) (r : PyStr) :
    bs.foldr (fun b acc => 37 :: hexDigit (b / 16) :: hexDigit (b % 16) :: acc) [] ++ r =
      bs.foldr (fun b acc => 37 :: hexDigit (b / 16) :: hexDigit (b % 16) :: acc) r := by
  induction bs with
  | nil => rfl
  | cons b bs ih => simp [ih]

theorem qTokens_pct_run (bs : List Nat) (hbs : ∀ b ∈ bs, b < 256) (rest : PyStr) :
    qTokens (bs.foldr (fun b acc => 37 :: hexDigit (b / 16) :: hexDigit (b % 16) :: acc) rest) =
      bs.map QTok.byte ++ qTokens rest := by
  induction bs with
  | nil => rfl
  | cons b bs ih =>
    simp only [List.foldr_cons]
    rw [qTokens_pct b (hbs b (by simp)), ih (fun x hx => hbs x (by simp [hx]))]
    rfl

theorem unquote_plus_quote_plus (s : PyStr) (hv : ValidStr s) :
    unquote_plus (quote_plus s) = s := by
  induction s with
  | nil => rfl
  | cons c cs ih =>
    have hvc : ValidCp c := hv c (by simp)
    have hvcs : ValidStr cs := fun d hd => hv d (by simp [hd])
    have ih2 := ih hvcs
    have hq : quote_plus (c :: cs) = quoteChar c ++ quote_plus cs := rfl
    rw [unquote_plus, unquote] at ih2 ⊢
    rw [hq, List.map_append, quoteChar]
    split_ifs with h1 h2
    · have hfacts := alwaysSafe_facts c h1
      simp only [List.map_cons, List.map_nil]
      rw [if_neg hfacts.2.1, List.singleton_append,
        qTokens_cons_lit c hfacts.1, regroupTokens_lit, ih2]
    · subst h2
      simp only [List.map_cons, List.map_nil]
      rw [if_pos trivial, List.singleton_append,
        qTokens_cons_lit 32 (by omega), regroupTokens_lit, ih2]
    · have hbs := utf8EncodeCp_lt c hvc.1
      have hmap : ((utf8EncodeCp c).foldr (fun b acc => 37 :: hexDigit (b / 16) ::
          hexDigit (b % 16) :: acc) []).map (fun x => if x = 43 then 32 else x) =
          (utf8EncodeCp c).foldr (fun b acc => 37 :: hexDigit (b / 16) ::
          hexDigit (b % 16) :: acc) [] := by
        apply map_plus_eq_self
        intro x hx
        rcases pctFoldr_mem _ [] x hx hbs with h | h | h | h
        · simp at h
        · omega
        · omega
        · omega
      rw [hmap, pctFoldr_append, qTokens_pct_run _ hbs, regroupTokens_bytes c hvc, ih2]

theorem joinWith_mem (sep : Nat) (l : List PyStr) :
    ∀ x ∈ joinWith sep l, x = sep ∨ ∃ f ∈ l, x ∈ f := by
  induction l with
  | nil => intro x hx; simp [joinWith] at hx
  | cons a l ih =>
    intro x hx
    cases l with
    | nil =>
      right
      exact ⟨a, by simp, hx⟩
    | cons b t =>
      have hj : joinWith sep (a :: b :: t) = a ++ sep :: joinWith sep (b :: t) := rfl
      rw [hj] at hx
      rcases List.mem_append.mp hx with hx | hx
      · right; exact ⟨a, by simp, hx⟩
      · rcases List.mem_cons.mp hx with hxe | hx
        · left; exact hxe
        · rcases ih x hx with h | ⟨f, hf, hxf⟩
          · left; exact h
          · right; exact ⟨f, List.mem_cons_of_mem a hf, hxf⟩

theorem joinWith_ne_nil (sep : Nat) (f : PyStr) (l : List PyStr) (hf : f ≠ []) :
    joinWith sep (f :: l) ≠ [] := by
  cases l with
  | nil => exact hf
  | cons b t =>
    have hj : joinWith sep (f :: b :: t) = f ++ sep :: joinWith sep (b :: t) := rfl
    rw [hj]
    simp

theorem splitOn_joinWith (sep : Nat) (l : List PyStr) (hl : l ≠ [])
    (h : ∀ f ∈ l, sep ∉ f) : splitOn sep (joinWith sep l) = l := by
  induction l with
  | nil => exact absurd rfl hl
  | cons f l ih =>
    cases l with
    | nil =>
      have hj : joinWith sep [f] = f := rfl
      rw [hj, splitOn_no_sep sep f (h f (by simp))]
    | cons b t =>
      have hj : joinWith sep (f :: b :: t) = f ++ sep :: joinWith sep (b :: t) := rfl
      rw [hj, splitOn_append sep f _ (h f (by simp)),
        ih (by simp) (fun g hg => h g (List.mem_cons_of_mem f hg))]

theorem filterMap_of_forall_some {α : Type} (F : α → Option α) (l : List α)
    (h : ∀ x ∈ l, F x = some x) : l.filterMap F = l := by
  induction l with
  | nil => rfl
  | cons a l ih =>
    simp only [List.filterMap_cons, h a (by simp)]
    rw [ih (fun x hx => h x (List.mem_cons_of_mem a hx))]

theorem parse_qsl_join_fields (P : List (PyStr × PyStr)) (hne : P ≠ [])
    (hval : ∀ p ∈ P, ValidStr p.1 ∧ ValidStr p.2) :
    parse_qsl (joinWith 38 (P.map fun p => quote_plus p.1 ++ 61 :: quote_plus p.2)) = P := by
  have hno38 : ∀ f ∈ P.map fun p => quote_plus p.1 ++ 61 :: quote_plus p.2, (38 : Nat) ∉ f := by
    intro f hf
    rw [List.mem_map] at hf
    obtain ⟨p, hp, hfd⟩ := hf
    subst hfd
    intro hm
    rcases List.mem_append.mp hm with hm | hm
    · exact (quote_plus_facts p.1 (hval p hp).1 38 hm).1 rfl
    · rcases List.mem_cons.mp hm with hm | hm
      · exact absurd hm (by decide)
      · exact (quote_plus_facts p.2 (hval p hp).2 38 hm).1 rfl
  rw [parse_qsl, splitOn_joinWith 38 _ (by simpa using hne) hno38, List.filterMap_map]
  apply filterMap_of_forall_some
  intro p hp
  obtain ⟨hk, hv⟩ := hval p hp
  have h61 : (61 : Nat) ∉ quote_plus p.1 := fun hm =>
    (quote_plus_facts p.1 hk 61 hm).2.1 rfl
  have hemp : ¬((quote_plus p.1 ++ 61 :: quote_plus p.2).isEmpty = true) := by
    rw [List.isEmpty_iff]
    simp
  show (if (quote_plus p.1 ++ 61 :: quote_plus p.2).isEmpty = true then none
    else match breakAt 61 (quote_plus p.1 ++ 61 :: quote_plus p.2) with
      | some nv => some (unquote_plus nv.1, unquote_plus nv.2)
      | none => some (unquote_plus (quote_plus p.1 ++ 61 :: quote_plus p.2), [])) = some p
  rw [if_neg hemp, breakAt_append 61 _ _ h61]
  simp only [unquote_plus_quote_plus p.1 hk, unquote_plus_quote_plus p.2 hv]

theorem urlencode_eq_join_fields (items : List (PyStr × List PyStr)) :
    urlencode items = joinWith 38 ((items.flatMap fun kv => kv.2.map fun v => (kv.1, v)).map
      fun p => quote_plus p.1 ++ 61 :: quote_plus p.2) := by
  rw [urlencode, List.map_flatMap]
  simp only [List.map_map, List.flatMap_def, Function.comp_def]

theorem parse_qsl_urlencode (items : List (PyStr × List PyStr))
    (hne : (items.flatMap fun kv => kv.2.map fun v => (kv.1, v)) ≠ [])
    (hval : ∀ kv ∈ items, ValidStr kv.1 ∧ ∀ v ∈ kv.2, ValidStr v) :
    parse_qsl (urlencode items) =
      items.flatMap fun kv => kv.2.map fun v => (kv.1, v) := by
  rw [urlencode_eq_join_fields]
  apply parse_qsl_join_fields _ hne
  intro p hp
  rw [List.mem_flatMap] at hp
  obtain ⟨kv, hkv, hp2⟩ := hp
  rw [List.mem_map] at hp2
  obtain ⟨v, hvv, hpd⟩ := hp2
  subst hpd
  exact ⟨(hval kv hkv).1, (hval kv hkv).2 v hvv⟩

theorem flatMap_pairs_ne_nil (items : List (PyStr × List PyStr)) (hne : items ≠ [])
    (hvs : ∀ kv ∈ items, kv.2 ≠ []) :
    (items.flatMap fun kv => kv.2.map fun v => (kv.1, v)) ≠ [] := by
  cases items with
  | nil => exact absurd rfl hne
  | cons kv rest =>
    rw [List.flatMap_cons]
    cases hv2 : kv.2 with
    | nil => exact absurd hv2 (hvs kv (by simp))
    | cons v vs => simp [hv2]

theorem urlencode_mem (items : List (PyStr × List PyStr))
    (hval : ∀ kv ∈ items, ValidStr kv.1 ∧ ∀ v ∈ kv.2, ValidStr v) :
    ∀ x ∈ urlencode items, x ≠ 35 ∧ x ≠ 9 ∧ x ≠ 13 ∧ x ≠ 10 ∧ x ≠ 47 := by
  intro x hx
  rw [urlencode] at hx
  rcases joinWith_mem 38 _ x hx with h38 | ⟨f, hf, hxf⟩
  · omega
  · rw [List.mem_flatten] at hf
    obtain ⟨S, hS, hfS⟩ := hf
    rw [List.mem_map] at hS
    obtain ⟨kv, hkv, hSdef⟩ := hS
    subst hSdef
    rw [List.mem_map] at hfS
    obtain ⟨v, hvv, hfdef⟩ := hfS
    subst hfdef
    rcases List.mem_append.mp hxf with hx1 | hx1
    · have hfacts := quote_plus_facts kv.1 (hval kv hkv).1 x hx1
      omega
    · rcases List.mem_cons.mp hx1 with hxe | hx1
      · omega
      · have hfacts := quote_plus_facts v ((hval kv hkv).2 v hvv) x hx1
        omega

theorem urlencode_ne_nil (items : List (PyStr × List PyStr)) (hne : items ≠ [])
    (hvs : ∀ kv ∈ items, kv.2 ≠ []) : urlencode items ≠ [] := by
  rw [urlencode]
  cases items with
  | nil => exact absurd rfl hne
  | cons kv rest =>
    cases hv2 : kv.2 with
    | nil => exact absurd hv2 (hvs kv (by simp))
    | cons v vs =>
      simp only [List.map_cons, hv2, List.flatten_cons, List.cons_append]
      apply joinWith_ne_nil
      cases hqk : quote_plus kv.1 <;> simp

/-! ## Claim C3: `parse_qs` dictionary invariants and grouped rebuild -/

theorem dictAdd_ne_nil (d : List (PyStr × List PyStr)) (k : PyStr) (v : PyStr) :
    dictAdd d k v ≠ [] := by
  cases d with
  | nil => simp [dictAdd]
  | cons e rest =>
    rw [dictAdd]
    split_ifs <;> simp

theorem dictAdd_keys (d : List (PyStr × List PyStr)) (k : PyStr) (v : PyStr) :
    (dictAdd d k v).map Prod.fst = if k ∈ d.map Prod.fst then d.map Prod.fst
      else d.map Prod.fst ++ [k] := by
  induction d with
  | nil => simp [dictAdd]
  | cons e rest ih =>
    rw [dictAdd]
    by_cases he : e.1 = k
    · rw [if_pos he]
      simp [he]
    · rw [if_neg he]
      simp only [List.map_cons, ih]
      by_cases hk : k ∈ rest.map Prod.fst
      · rw [if_pos hk, if_pos (List.mem_cons_of_mem e.1 hk)]
      · rw [if_neg hk, if_neg (by
          intro hm
          rcases List.mem_cons.mp hm with hm | hm
          · exact he hm.symm
          · exact hk hm)]
        simp

theorem dictAdd_keys_nodup (d : List (PyStr × List PyStr)) (k : PyStr) (v : PyStr)
    (h : (d.map Prod.fst).Nodup) : ((dictAdd d k v).map Prod.fst).Nodup := by
  rw [dictAdd_keys]
  split_ifs with hk
  · exact h
  · rw [List.nodup_append]
    exact ⟨h, List.nodup_singleton k, by simpa using hk⟩

theorem dictAdd_vals (d : List (PyStr × List PyStr)) (k : PyStr) (v : PyStr)
    (h : ∀ e ∈ d, e.2 ≠ []) : ∀ e ∈ dictAdd d k v, e.2 ≠ [] := by
  induction d with
  | nil =>
    intro e he
    simp [dictAdd] at he
    rw [he]
    simp
  | cons a rest ih =>
    intro e he
    rw [dictAdd] at he
    split_ifs at he with ha
    · rcases List.mem_cons.mp he with he | he
      · rw [he]; simp
      · exact h e (List.mem_cons_of_mem a he)
    · rcases List.mem_cons.mp he with he | he
      · rw [he]; exact h a (by simp)
      · exact ih (fun x hx => h x (List.mem_cons_of_mem a hx)) e he

theorem dictAdd_valid (d : List (PyStr × List PyStr)) (k : PyStr) (v : PyStr)
    (hd : ∀ e ∈ d, ValidStr e.1 ∧ ∀ w ∈ e.2, ValidStr w)
    (hk : ValidStr k) (hv : ValidStr v) :
    ∀ e ∈ dictAdd d k v, ValidStr e.1 ∧ ∀ w ∈ e.2, ValidStr w := by
  induction d with
  | nil =>
    intro e he
    simp [dictAdd] at he
    rw [he]
    exact ⟨hk, by intro w hw; simp at hw; rw [hw]; exact hv⟩
  | cons a rest ih =>
    intro e he
    rw [dictAdd] at he
    split_ifs at he with ha
    · rcases List.mem_cons.mp he with he | he
      · rw [he]
        refine ⟨(hd a (by simp)).1, ?_⟩
        intro w hw
        rcases List.mem_append.mp hw with hw | hw
        · exact (hd a (by simp)).2 w hw
        · simp at hw; rw [hw]; exact hv
      · exact hd e (List.mem_cons_of_mem a he)
    · rcases List.mem_cons.mp he with he | he
      · rw [he]; exact hd a (by simp)
      · exact ih (fun x hx => hd x (List.mem_cons_of_mem a hx)) e he

theorem foldl_dictAdd_keys_nodup (l : List (PyStr × PyStr)) :
    ∀ d : List (PyStr × List PyStr), (d.map Prod.fst).Nodup →
      ((l.foldl (fun d kv => dictAdd d kv.1 kv.2) d).map Prod.fst).Nodup := by
  induction l with
  | nil => intro d h; exact h
  | cons kv rest ih => intro d h; exact ih _ (dictAdd_keys_nodup d kv.1 kv.2 h)

theorem foldl_dictAdd_vals (l : List (PyStr × PyStr)) :
    ∀ d : List (PyStr × List PyStr), (∀ e ∈ d, e.2 ≠ []) →
      ∀ e ∈ l.foldl (fun d kv => dictAdd d kv.1 kv.2) d, e.2 ≠ [] := by
  induction l with
  | nil => intro d h; exact h
  | cons kv rest ih => intro d h; exact ih _ (dictAdd_vals d kv.1 kv.2 h)

theorem foldl_dictAdd_valid (l : List (PyStr × PyStr))
    (hl : ∀ kv ∈ l, ValidStr kv.1 ∧ ValidStr kv.2) :
    ∀ d : List (PyStr × List PyStr), (∀ e ∈ d, ValidStr e.1 ∧ ∀ w ∈ e.2, ValidStr w) →
      ∀ e ∈ l.foldl (fun d kv => dictAdd d kv.1 kv.2) d,
        ValidStr e.1 ∧ ∀ w ∈ e.2, ValidStr w := by
  induction l with
  | nil => intro d h; exact h
  | cons kv rest ih =>
    intro d h
    exact ih (fun x hx => hl x (List.mem_cons_of_mem kv hx)) _
      (dictAdd_valid d kv.1 kv.2 h (hl kv (by simp)).1 (hl kv (by simp)).2)

theorem foldl_dictAdd_ne_nil (l : List (PyStr × PyStr)) :
    ∀ d : List (PyStr × List PyStr), d ≠ [] →
      l.foldl (fun d kv => dictAdd d kv.1 kv.2) d ≠ [] := by
  induction l with
  | nil => intro d hd; exact hd
  | cons kv rest ih => intro d _; exact ih _ (dictAdd_ne_nil d kv.1 kv.2)

theorem parse_qs_keys_nodup (qs : PyStr) : ((parse_qs qs).map Prod.fst).Nodup := by
  rw [parse_qs]
  exact foldl_dictAdd_keys_nodup _ [] (by simp)

theorem parse_qs_vals (qs : PyStr) : ∀ e ∈ parse_qs qs, e.2 ≠ [] := by
  rw [parse_qs]
  exact foldl_dictAdd_vals _ [] (by simp)

theorem parse_qs_ne_nil (qs : PyStr) (h : parse_qsl qs ≠ []) : parse_qs qs ≠ [] := by
  rw [parse_qs]
  cases hql : parse_qsl qs with
  | nil => exact absurd hql h
  | cons kv rest =>
    rw [List.foldl_cons]
    exact foldl_dictAdd_ne_nil rest _ (dictAdd_ne_nil [] kv.1 kv.2)

theorem parse_qs_valid (qs : PyStr)
    (h : ∀ kv ∈ parse_qsl qs, ValidStr kv.1 ∧ ValidStr kv.2) :
    ∀ e ∈ parse_qs qs, ValidStr e.1 ∧ ∀ w ∈ e.2, ValidStr w := by
  rw [parse_qs]
  exact foldl_dictAdd_valid _ h [] (by simp)

theorem dictAdd_append_last (d : List (PyStr × List PyStr)) (k : PyStr) (vs : List PyStr)
    (v : PyStr) (hk : k ∉ d.map Prod.fst) :
    dictAdd (d ++ [(k, vs)]) k v = d ++ [(k, vs ++ [v])] := by
  induction d with
  | nil => simp [dictAdd]
  | cons e rest ih =>
    simp only [List.map_cons, List.mem_cons] at hk
    push_neg at hk
    rw [List.cons_append, dictAdd, if_neg (fun h => hk.1 h.symm), ih hk.2]
    rfl

theorem foldl_dictAdd_run (vs : List PyStr) (d : List (PyStr × List PyStr)) (k : PyStr)
    (hk : k ∉ d.map Prod.fst) :
    ∀ vs0, (vs.map fun v => (k, v)).foldl (fun d kv => dictAdd d kv.1 kv.2)
      (d ++ [(k, vs0)]) = d ++ [(k, vs0 ++ vs)] := by
  induction vs with
  | nil => intro vs0; simp
  | cons v vs ih =>
    intro vs0
    simp only [List.map_cons, List.foldl_cons]
    rw [dictAdd_append_last d k vs0 v hk, ih (vs0 ++ [v])]
    simp

theorem foldl_dictAdd_grouped (items : List (PyStr × List PyStr)) :
    ∀ d : List (PyStr × List PyStr), (items.map Prod.fst).Nodup →
      (∀ kv ∈ items, kv.2 ≠ []) →
      (∀ kk ∈ items.map Prod.fst, kk ∉ d.map Prod.fst) →
      (items.flatMap fun kv => kv.2.map fun v => (kv.1, v)).foldl
        (fun d kv => dictAdd d kv.1 kv.2) d = d ++ items := by
  induction items with
  | nil => intro d _ _ _; simp
  | cons kv rest ih =>
    intro d hnd hvs hdis
    rw [List.flatMap_cons, List.foldl_append]
    have hk : kv.1 ∉ d.map Prod.fst := hdis kv.1 (by simp)
    have h1 : (kv.2.map fun v => (kv.1, v)).foldl
        (fun d kv => dictAdd d kv.1 kv.2) d = d ++ [kv] := by
      cases hv2 : kv.2 with
      | nil => exact absurd hv2 (hvs kv (by simp))
      | cons v vs =>
        simp only [List.map_cons, List.foldl_cons]
        rw [dictAdd_fresh d kv.1 v hk, foldl_dictAdd_run vs d kv.1 hk [v]]
        have hkv : ((kv.1 : PyStr), [v] ++ vs) = kv := by
          rw [show ([v] ++ vs : List PyStr) = v :: vs from rfl, ← hv2]
        rw [hkv]
    rw [h1]
    simp only [List.map_cons, List.nodup_cons] at hnd
    rw [ih (d ++ [kv]) hnd.2 (fun x hx => hvs x (List.mem_cons_of_mem kv hx)) ?dis]
    · simp
    case dis =>
      intro kk hkk
      rw [List.map_append, List.mem_append]
      push_neg
      constructor
      · exact hdis kk (List.mem_cons_of_mem kv.1 hkk)
      · simp only [List.map_singleton, List.mem_singleton]
        intro he
        rw [he] at hkk
        exact hnd.1 hkk

theorem parse_qs_of_grouped_flat (items : List (PyStr × List PyStr))
    (hnd : (items.map Prod.fst).Nodup) (hvs : ∀ kv ∈ items, kv.2 ≠ []) :
    (items.flatMap fun kv => kv.2.map fun v => (kv.1, v)).foldl
      (fun d kv => dictAdd d kv.1 kv.2) [] = items := by
  have := foldl_dictAdd_grouped items [] hnd hvs (by simp)
  simpa using this

/-! ## Claim C3: structural shape of `urlsplit` output on arbitrary input -/

theorem removeUnsafe_mem (u : PyStr) :
    ∀ c ∈ removeUnsafe u, c ≠ 9 ∧ c ≠ 13 ∧ c ≠ 10 := by
  intro c hc
  rw [removeUnsafe, List.mem_filter] at hc
  have h2 := hc.2
  simp at h2
  omega

theorem lowerAscii_idem (s : PyStr) : lowerAscii (lowerAscii s) = lowerAscii s := by
  rw [lowerAscii, lowerAscii, List.map_map]
  apply List.map_congr_left
  intro c _
  simp only [Function.comp_apply]
  by_cases h : isUpperCp c = true
  · rw [if_pos h, if_neg (by
      simp [isUpperCp] at h ⊢
      omega)]
  · rw [if_neg h, if_neg h]

theorem isSchemeChar_lower (c : Nat) (h : isSchemeChar c = true) :
    isSchemeChar (if isUpperCp c then c + 32 else c) = true := by
  by_cases hu : isUpperCp c = true
  · rw [if_pos hu]
    simp only [isSchemeChar, isAlphaCp, isUpperCp, isLowerCp, isDigitCp] at *
    simp at hu ⊢
    omega
  · rw [if_neg hu]
    exact h

theorem validScheme_lower (s : PyStr) (h : validScheme s = true) :
    validScheme (lowerAscii s) = true := by
  cases s with
  | nil => simp [validScheme] at h
  | cons c cs =>
    rw [validScheme] at h
    simp only [Bool.and_eq_true, List.all_eq_true] at h
    rw [lowerAscii, List.map_cons, validScheme]
    simp only [Bool.and_eq_true, List.all_eq_true]
    constructor
    · have h1 := h.1
      by_cases hu : isUpperCp c = true
      · rw [if_pos hu]
        simp [isAlphaCp, isUpperCp, isLowerCp] at h1 ⊢
        simp [isUpperCp] at hu
        omega
      · rw [if_neg hu]
        exact h1
    · intro x hx
      rcases List.mem_cons.mp hx with hxe | hx
      · rw [hxe]
        exact isSchemeChar_lower c (h.2 c (by simp))
      · rw [List.mem_map] at hx
        obtain ⟨d, hd, hdx⟩ := hx
        rw [← hdx]
        exact isSchemeChar_lower d (h.2 d (List.mem_cons_of_mem c hd))

theorem spanUntil_snd_head (stops : List Nat) (l : PyStr) :
    ∀ x, (spanUntil stops l).2.head? = some x → x ∈ stops := by
  induction l with
  | nil => intro x hx; simp [spanUntil] at hx
  | cons c rest ih =>
    intro x hx
    by_cases h : c ∈ stops
    · simp only [spanUntil, if_pos h, List.head?_cons] at hx
      injection hx with hx
      rw [← hx]
      exact h
    · simp only [spanUntil, if_neg h] at hx
      exact ih x hx

theorem breakAtLast_some (c : Nat) (l a b : PyStr) (h : breakAtLast c l = some (a, b)) :
    l = a ++ c :: b ∧ c ∉ b := by
  rw [breakAtLast] at h
  cases hb : breakAt c l.reverse with
  | none => rw [hb] at h; simp at h
  | some p =>
    rw [hb] at h
    simp only [Option.some.injEq, Prod.mk.injEq] at h
    obtain ⟨h1, h2⟩ := h
    obtain ⟨hl, hcp⟩ := breakAt_some c l.reverse p.1 p.2 (by rw [hb])
    constructor
    · have hrev := congrArg List.reverse hl
      rw [List.reverse_reverse] at hrev
      rw [hrev, ← h1, ← h2]
      simp
    · rw [← h2]
      simpa using hcp

theorem fragSplit_shape (l : PyStr) :
    (35 : Nat) ∉ (fragSplit l).1 ∧ (∀ c ∈ (fragSplit l).1, c ∈ l) ∧
      ((fragSplit l).1 = [] ∨ (fragSplit l).1.head? = l.head?) := by
  rw [fragSplit]
  cases hb : breakAt 35 l with
  | none =>
    exact ⟨(breakAt_eq_none 35 l).mp hb, fun c hc => hc, Or.inr rfl⟩
  | some pr =>
    simp only
    obtain ⟨hdec, hnot⟩ := breakAt_some 35 l pr.1 pr.2 hb
    refine ⟨hnot, ?_, ?_⟩
    · intro c hc
      rw [hdec]
      exact List.mem_append.mpr (Or.inl hc)
    · cases hpr : pr.1 with
      | nil => left; rfl
      | cons x t =>
        right
        rw [hdec, hpr]
        simp

theorem querySplit_shape (l : PyStr) :
    (63 : Nat) ∉ (querySplit l).1 ∧ (∀ c ∈ (querySplit l).1, c ∈ l) ∧
      ((querySplit l).1 = [] ∨ (querySplit l).1.head? = l.head?) ∧
      (∀ c ∈ (querySplit l).2, c ∈ l) := by
  rw [querySplit]
  cases hb : breakAt 63 l with
  | none =>
    exact ⟨(breakAt_eq_none 63 l).mp hb, fun c hc => hc, Or.inr rfl,
      fun c hc => (by simp at hc : False).elim⟩
  | some pr =>
    simp only
    obtain ⟨hdec, hnot⟩ := breakAt_some 63 l pr.1 pr.2 hb
    refine ⟨hnot, ?_, ?_, ?_⟩
    · intro c hc
      rw [hdec]
      exact List.mem_append.mpr (Or.inl hc)
    · cases hpr : pr.1 with
      | nil => left; rfl
      | cons x t =>
        right
        rw [hdec, hpr]
        simp
    · intro c hc
      rw [hdec]
      simp [hc]

theorem netlocSplit_shape (R : PyStr) :
    (∀ c ∈ (netlocSplit R).1, c ≠ 47 ∧ c ≠ 63 ∧ c ≠ 35 ∧ c ∈ R) ∧
    (∀ c ∈ (netlocSplit R).2, c ∈ R) ∧
    ((netlocSplit R).1 ≠ [] →
      ∀ x, (netlocSplit R).2.head? = some x → x = 47 ∨ x = 63 ∨ x = 35) := by
  rw [netlocSplit]
  split_ifs with h2
  · refine ⟨?_, ?_, ?_⟩
    · intro c hc
      have hns := spanUntil_fst_not_stop [47, 63, 35] (R.drop 2) c hc
      have hm : c ∈ R.drop 2 := by
        have hsplit := spanUntil_split [47, 63, 35] (R.drop 2)
        rw [← hsplit]
        exact List.mem_append.mpr (Or.inl hc)
      simp at hns
      exact ⟨hns.1, hns.2.1, hns.2.2, List.drop_subset 2 R hm⟩
    · intro c hc
      have hsplit := spanUntil_split [47, 63, 35] (R.drop 2)
      have hm : c ∈ R.drop 2 := by
        rw [← hsplit]
        exact List.mem_append.mpr (Or.inr hc)
      exact List.drop_subset 2 R hm
    · intro _ x hx
      have := spanUntil_snd_head [47, 63, 35] (R.drop 2) x hx
      simpa using this
  · refine ⟨by simp, fun c hc => hc, by simp⟩

theorem urlsplit_eq_splitTail (u : PyStr) :
    urlsplit u =
      (match breakAt 58 (removeUnsafe u) with
      | some p =>
        if validScheme p.1 then
          ⟨lowerAscii p.1, (splitTail p.2).1, (splitTail p.2).2.1,
            (splitTail p.2).2.2.1, (splitTail p.2).2.2.2⟩
        else
          ⟨[], (splitTail (removeUnsafe u)).1, (splitTail (removeUnsafe u)).2.1,
            (splitTail (removeUnsafe u)).2.2.1, (splitTail (removeUnsafe u)).2.2.2⟩
      | none =>
        ⟨[], (splitTail (removeUnsafe u)).1, (splitTail (removeUnsafe u)).2.1,
          (splitTail (removeUnsafe u)).2.2.1, (splitTail (removeUnsafe u)).2.2.2⟩) := by
  simp only [urlsplit]
  cases hb : breakAt 58 (removeUnsafe u) with
  | none => rfl
  | some p =>
    simp only
    by_cases hv : validScheme p.1 = true
    · rw [if_pos hv, if_pos hv]
      rfl
    · rw [if_neg hv, if_neg hv]
      rfl

theorem urlsplit_shape (u : PyStr) :
    ((urlsplit u).scheme = [] ∨
      (validScheme (urlsplit u).scheme = true ∧
        lowerAscii (urlsplit u).scheme = (urlsplit u).scheme)) ∧
    (∀ c ∈ (urlsplit u).netloc, c ≠ 47 ∧ c ≠ 63 ∧ c ≠ 35 ∧ c ≠ 9 ∧ c ≠ 13 ∧ c ≠ 10) ∧
    ((urlsplit u).netloc ≠ [] →
      ((urlsplit u).path = [] ∨ (urlsplit u).path.head? = some 47)) ∧
    (∀ c ∈ (urlsplit u).path, c ≠ 63 ∧ c ≠ 35 ∧ c ≠ 9 ∧ c ≠ 13 ∧ c ≠ 10) ∧
    (∀ c ∈ (urlsplit u).query, c ≠ 35 ∧ c ≠ 9 ∧ c ≠ 13 ∧ c ≠ 10) := by
  have hclean := removeUnsafe_mem u
  have tail : ∀ R : PyStr, (∀ c ∈ R, c ≠ 9 ∧ c ≠ 13 ∧ c ≠ 10) →
      (∀ c ∈ (splitTail R).1, c ≠ 47 ∧ c ≠ 63 ∧ c ≠ 35 ∧ c ≠ 9 ∧ c ≠ 13 ∧ c ≠ 10) ∧
      ((splitTail R).1 ≠ [] →
        ((splitTail R).2.1 = [] ∨ (splitTail R).2.1.head? = some 47)) ∧
      (∀ c ∈ (splitTail R).2.1, c ≠ 63 ∧ c ≠ 35 ∧ c ≠ 9 ∧ c ≠ 13 ∧ c ≠ 10) ∧
      (∀ c ∈ (splitTail R).2.2.1, c ≠ 35 ∧ c ≠ 9 ∧ c ≠ 13 ∧ c ≠ 10) := by
    intro R hcl
    show
      (∀ c ∈ (netlocSplit R).1, c ≠ 47 ∧ c ≠ 63 ∧ c ≠ 35 ∧ c ≠ 9 ∧ c ≠ 13 ∧ c ≠ 10) ∧
      ((netlocSplit R).1 ≠ [] →
        ((querySplit (fragSplit (netlocSplit R).2).1).1 = [] ∨
          (querySplit (fragSplit (netlocSplit R).2).1).1.head? = some 47)) ∧
      (∀ c ∈ (querySplit (fragSplit (netlocSplit R).2).1).1,
        c ≠ 63 ∧ c ≠ 35 ∧ c ≠ 9 ∧ c ≠ 13 ∧ c ≠ 10) ∧
      (∀ c ∈ (querySplit (fragSplit (netlocSplit R).2).1).2,
        c ≠ 35 ∧ c ≠ 9 ∧ c ≠ 13 ∧ c ≠ 10)
    obtain ⟨hN, hR2, hHead⟩ := netlocSplit_shape R
    obtain ⟨hF35, hFsub, hFhead⟩ := fragSplit_shape (netlocSplit R).2
    obtain ⟨hQ63, hQsub, hQhead, hQ2sub⟩ :=
      querySplit_shape (fragSplit (netlocSplit R).2).1
    refine ⟨?_, ?_, ?_, ?_⟩
    · intro c hc
      obtain ⟨h47, h63, h35, hmem⟩ := hN c hc
      have h9 := hcl c hmem
      exact ⟨h47, h63, h35, h9.1, h9.2.1, h9.2.2⟩
    · intro hne
      rcases hQhead with hq | hq
      · left; exact hq
      · rcases hFhead with hf | hf
        · left
          rw [hf]
          rfl
        · cases hh : (netlocSplit R).2.head? with
          | none =>
            left
            rw [List.head?_eq_none_iff] at hh
            rw [hh, show (fragSplit ([] : PyStr)).1 = ([] : PyStr) from rfl]
            rfl
          | some x =>
            have hx := hHead hne x hh
            rw [hh] at hf
            rcases hx with rfl | rfl | rfl
            · right; rw [hq, hf]
            · exfalso
              apply hQ63
              apply List.mem_of_mem_head?
              rw [hq, hf]
              simp
            · exfalso
              apply hF35
              apply List.mem_of_mem_head?
              rw [hf]
              simp
    · intro c hc
      have hcP0 : c ∈ (fragSplit (netlocSplit R).2).1 := hQsub c hc
      have hcR : c ∈ R := hR2 c (hFsub c hcP0)
      have h9 := hcl c hcR
      refine ⟨?_, ?_, h9.1, h9.2.1, h9.2.2⟩
      · exact fun he => hQ63 (he ▸ hc)
      · exact fun he => hF35 (he ▸ hcP0)
    · intro c hc
      have hcP0 : c ∈ (fragSplit (netlocSplit R).2).1 := hQ2sub c hc
      have hcR : c ∈ R := hR2 c (hFsub c hcP0)
      have h9 := hcl c hcR
      exact ⟨fun he => hF35 (he ▸ hcP0), h9.1, h9.2.1, h9.2.2⟩
  rw [urlsplit_eq_splitTail u]
  cases hb : breakAt 58 (removeUnsafe u) with
  | none =>
    obtain ⟨t1, t2, t3, t4⟩ := tail (removeUnsafe u) hclean
    exact ⟨Or.inl rfl, t1, t2, t3, t4⟩
  | some p =>
    simp only
    split_ifs with hv
    · obtain ⟨hdec, _⟩ := breakAt_some 58 (removeUnsafe u) p.1 p.2 hb
      have hclean2 : ∀ c ∈ p.2, c ≠ 9 ∧ c ≠ 13 ∧ c ≠ 10 := by
        intro c hc
        apply hclean
        rw [hdec]
        simp [hc]
      obtain ⟨t1, t2, t3, t4⟩ := tail p.2 hclean2
      exact ⟨Or.inr ⟨validScheme_lower p.1 hv, lowerAscii_idem p.1⟩, t1, t2, t3, t4⟩
    · obtain ⟨t1, t2, t3, t4⟩ := tail (removeUnsafe u) hclean
      exact ⟨Or.inl rfl, t1, t2, t3, t4⟩

theorem splitparams_fst (p : PyStr) :
    (∀ c ∈ (splitparams p).1, c ∈ p) ∧
    ((splitparams p).1 = [] ∨ (splitparams p).1.head? = p.head?) := by
  rw [splitparams]
  split_ifs with h59 h47
  · cases hb : breakAtLast 47 p with
    | none => exact ⟨fun c hc => hc, Or.inr rfl⟩
    | some ab =>
      simp only
      cases hb2 : breakAt 59 ab.2 with
      | none => exact ⟨fun c hc => hc, Or.inr rfl⟩
      | some b12 =>
        obtain ⟨hl, _⟩ := breakAtLast_some 47 p ab.1 ab.2 hb
        obtain ⟨hl2, _⟩ := breakAt_some 59 ab.2 b12.1 b12.2 hb2
        show (∀ c ∈ ab.1 ++ 47 :: b12.1, c ∈ p) ∧
          (ab.1 ++ 47 :: b12.1 = [] ∨ (ab.1 ++ 47 :: b12.1).head? = p.head?)
        constructor
        · intro c hc
          rw [hl, hl2]
          rcases List.mem_append.mp hc with hc | hc
          · exact List.mem_append.mpr (Or.inl hc)
          · rcases List.mem_cons.mp hc with hce | hc
            · rw [hce]
              simp
            · simp [hc]
        · right
          cases hab1 : ab.1 with
          | nil =>
            rw [hl, hab1]
            simp
          | cons a as =>
            rw [hl, hab1]
            simp
  · cases hb : breakAt 59 p with
    | none => exact ⟨fun c hc => hc, Or.inr rfl⟩
    | some p12 =>
      simp only
      obtain ⟨hl, _⟩ := breakAt_some 59 p p12.1 p12.2 hb
      show (∀ c ∈ p12.1, c ∈ p) ∧ (p12.1 = [] ∨ p12.1.head? = p.head?)
      constructor
      · intro c hc
        rw [hl]
        exact List.mem_append.mpr (Or.inl hc)
      · cases hp1 : p12.1 with
        | nil => left; rfl
        | cons a as =>
          right
          rw [hl, hp1]
          simp
  · exact ⟨fun c hc => hc, Or.inr rfl⟩

theorem urlparse_shape (u : PyStr) :
    ((urlparse u).scheme = [] ∨
      (validScheme (urlparse u).scheme = true ∧
        lowerAscii (urlparse u).scheme = (urlparse u).scheme)) ∧
    (∀ c ∈ (urlparse u).netloc, c ≠ 47 ∧ c ≠ 63 ∧ c ≠ 35 ∧ c ≠ 9 ∧ c ≠ 13 ∧ c ≠ 10) ∧
    ((urlparse u).netloc ≠ [] →
      ((urlparse u).path = [] ∨ (urlparse u).path.head? = some 47)) ∧
    (∀ c ∈ (urlparse u).path, c ≠ 63 ∧ c ≠ 35 ∧ c ≠ 9 ∧ c ≠ 13 ∧ c ≠ 10) ∧
    (∀ c ∈ (urlparse u).query, c ≠ 35 ∧ c ≠ 9 ∧ c ≠ 13 ∧ c ≠ 10) := by
  obtain ⟨hS, hN, hH, hP, hQ⟩ := urlsplit_shape u
  refine ⟨hS, hN, ?_, ?_, hQ⟩
  · intro hne
    rcases hH hne with h | h
    · left
      show (splitparams (urlsplit u).path).1 = []
      rw [h, splitparams_no_semi [] (by simp)]
    · rcases (splitparams_fst (urlsplit u).path).2 with h2 | h2
      · left; exact h2
      · right
        show (splitparams (urlsplit u).path).1.head? = some 47
        rw [h2, h]
  · intro c hc
    exact hP c ((splitparams_fst (urlsplit u).path).1 c hc)

/-! ## Claim C3: validity of `parse_qsl` output strings -/

theorem splitOnAux_subset (sep : Nat) (l : PyStr) :
    ∀ acc, ∀ f ∈ splitOnAux sep l acc, ∀ x ∈ f, x ∈ acc ∨ x ∈ l := by
  induction l with
  | nil =>
    intro acc f hf x hx
    simp [splitOnAux] at hf
    rw [hf] at hx
    exact Or.inl hx
  | cons c rest ih =>
    intro acc f hf x hx
    rw [splitOnAux] at hf
    split_ifs at hf with hc
    · rcases List.mem_cons.mp hf with hfe | hf
      · rw [hfe] at hx
        exact Or.inl hx
      · rcases ih [] f hf x hx with h | h
        · simp at h
        · exact Or.inr (List.mem_cons_of_mem c h)
    · rcases ih (acc ++ [c]) f hf x hx with h | h
      · rcases List.mem_append.mp h with h | h
        · exact Or.inl h
        · simp at h
          rw [h]
          exact Or.inr (by simp)
      · exact Or.inr (List.mem_cons_of_mem c h)

theorem splitOn_subset (sep : Nat) (l : PyStr) :
    ∀ f ∈ splitOn sep l, ∀ x ∈ f, x ∈ l := by
  intro f hf x hx
  rcases splitOnAux_subset sep l [] f hf x hx with h | h
  · simp at h
  · exact h

theorem qTokens_lit_mem (s : PyStr) : ∀ c, QTok.lit c ∈ qTokens s → c ∈ s := by
  induction s using qTokens.induct with
  | case1 =>
    intro c hc
    rw [show qTokens [] = [] from rfl] at hc
    simp at hc
  | case2 d =>
    intro c hc
    rw [show qTokens [d] = [.lit d] from rfl] at hc
    simp at hc
    simp [hc]
  | case3 d e ih =>
    intro c hc
    rw [show qTokens [d, e] = .lit d :: qTokens [e] from rfl] at hc
    rcases List.mem_cons.mp hc with hce | hc
    · injection hce with hce
      rw [hce]
      simp
    · exact List.mem_cons_of_mem d (ih c hc)
  | case4 h1 h2 rest2 hhex ih =>
    intro c hc
    rw [qTokens.eq_def] at hc
    simp only at hc
    rw [if_pos trivial, if_pos hhex] at hc
    rcases List.mem_cons.mp hc with hce | hc
    · exact absurd hce (by simp)
    · exact List.mem_cons_of_mem 37 (List.mem_cons_of_mem h1
        (List.mem_cons_of_mem h2 (ih c hc)))
  | case5 h1 h2 rest2 hhex ih =>
    intro c hc
    rw [qTokens.eq_def] at hc
    simp only at hc
    rw [if_pos trivial, if_neg hhex] at hc
    rcases List.mem_cons.mp hc with hce | hc
    · injection hce with hce
      rw [hce]
      simp
    · exact List.mem_cons_of_mem 37 (ih c hc)
  | case6 d h1 h2 rest2 h37 ih =>
    intro c hc
    rw [qTokens.eq_def] at hc
    simp only at hc
    rw [if_neg h37] at hc
    rcases List.mem_cons.mp hc with hce | hc
    · injection hce with hce
      rw [hce]
      simp
    · exact List.mem_cons_of_mem d (ih c hc)

theorem regroupF_snd_valid (ts : List QTok) (hlit : ∀ c, QTok.lit c ∈ ts → ValidCp c) :
    ValidStr (regroupF ts).2 := by
  induction ts with
  | nil => intro c hc; simp [regroupF] at hc
  | cons t ts ih =>
    cases t with
    | byte b =>
      exact ih (fun c hc => hlit c (List.mem_cons_of_mem _ hc))
    | lit c0 =>
      intro c hc
      have hc2 : c ∈ c0 :: (utf8Decode (regroupF ts).1 ++ (regroupF ts).2) := hc
      rcases List.mem_cons.mp hc2 with hce | hc3
      · rw [hce]
        exact hlit c0 (by simp)
      · rcases List.mem_append.mp hc3 with h | h
        · exact utf8Decode_valid _ c h
        · exact ih (fun d hd => hlit d (List.mem_cons_of_mem _ hd)) c h

theorem unquote_valid (s : PyStr) (hv : ValidStr s) : ValidStr (unquote s) := by
  rw [unquote, regroupTokens]
  intro c hc
  rcases List.mem_append.mp hc with h | h
  · exact utf8Decode_valid _ c h
  · exact regroupF_snd_valid (qTokens s)
      (fun c0 hc0 => hv c0 (qTokens_lit_mem s c0 hc0)) c h

theorem unquote_plus_valid (s : PyStr) (hv : ValidStr s) : ValidStr (unquote_plus s) := by
  rw [unquote_plus]
  apply unquote_valid
  intro c hc
  rw [List.mem_map] at hc
  obtain ⟨d, hd, hdc⟩ := hc
  by_cases hd43 : d = 43
  · rw [← hdc, hd43, if_pos rfl]
    exact ⟨by omega, by omega⟩
  · rw [← hdc, if_neg hd43]
    exact hv d hd

theorem parse_qsl_valid (qs : PyStr) (hv : ValidStr qs) :
    ∀ kv ∈ parse_qsl qs, ValidStr kv.1 ∧ ValidStr kv.2 := by
  intro kv hkv
  rw [parse_qsl, List.mem_filterMap] at hkv
  obtain ⟨f, hf, hmap⟩ := hkv
  have hfv : ValidStr f := fun x hx => hv x (splitOn_subset 38 qs f hf x hx)
  split_ifs at hmap with hemp
  cases hb : breakAt 61 f with
  | some nv =>
    rw [hb] at hmap
    simp only [Option.some.injEq] at hmap
    rw [← hmap]
    obtain ⟨hdec, _⟩ := breakAt_some 61 f nv.1 nv.2 hb
    constructor
    · apply unquote_plus_valid
      intro x hx
      apply hfv
      rw [hdec]
      simp [hx]
    · apply unquote_plus_valid
      intro x hx
      apply hfv
      rw [hdec]
      simp [hx]
  | none =>
    rw [hb] at hmap
    simp only [Option.some.injEq] at hmap
    rw [← hmap]
    refine ⟨unquote_plus_valid f hfv, ?_⟩
    intro x hx
    simp at hx

/-! ## Claim C3: small list helpers for the trailing-slash analysis -/

theorem dropLast_head (l : PyStr) : l.dropLast = [] ∨ l.dropLast.head? = l.head? := by
  cases l with
  | nil => left; rfl
  | cons a t =>
    cases t with
    | nil => left; rfl
    | cons b t2 =>
      right
      rw [List.dropLast_cons₂]
      simp

theorem eq_dropLast_concat (l : PyStr) (x : Nat) (h : l.getLast? = some x) :
    l = l.dropLast ++ [x] := by
  have hne : l ≠ [] := by
    intro he
    rw [he] at h
    simp at h
  have h3 := List.getLast?_eq_getLast l hne
  rw [h3] at h
  injection h with h4
  rw [← h4]
  exact (List.dropLast_append_getLast hne).symm

theorem getLast?_append_of_ne_nil (a b : PyStr) (hb : b ≠ []) :
    (a ++ b).getLast? = b.getLast? := by
  rw [List.getLast?_append]
  cases hgb : b.getLast? with
  | none =>
    rw [List.getLast?_eq_none_iff] at hgb
    exact absurd hgb hb
  | some y => rfl

/-! ## Claim C3: idempotence of `normalize_url` -/

/-- C3 counterexample: `normalize_url` is not idempotent.  The query `?&`
parses to zero key/value pairs, so the first pass re-emits an empty query
after the bare `?`; the second pass parses that `?` as an empty query string
and drops it entirely. -/
theorem C3_idempotence_counterexample :
    normalize_url (normalize_url (pyOfString "http://h/p?&")) ≠
      normalize_url (pyOfString "http://h/p?&") ∧
    normalize_url (pyOfString "http://h/p?&") = pyOfString "http://h/p?" ∧
    normalize_url (normalize_url (pyOfString "http://h/p?&")) = pyOfString "http://h/p" := by
  refine ⟨by decide, by decide, by decide⟩

/-- C3 (amended): `normalize_url` is idempotent on every URL whose parse has
a scheme and a nonempty authority, whose path carries no `;` params and does
not end in a double slash while containing at least three slashes, and whose
query (a string of unicode scalar values) is either absent or parses to at
least one key/value pair.  Outside these conditions idempotence fails, e.g.
for a query that parses to zero pairs (see the counterexample). -/
theorem C3_idempotent_amended (u : PyStr)
    (hS : (urlparse u).scheme ≠ [])
    (hN : (urlparse u).netloc ≠ [])
    (hsemi : 59 ∉ (urlparse u).path)
    (hDS : ¬((urlparse u).path.dropLast.getLast? = some 47 ∧
        (urlparse u).path.getLast? = some 47 ∧ 3 ≤ (urlparse u).path.count 47))
    (hQ : (urlparse u).query = [] ∨ parse_qsl (urlparse u).query ≠ [])
    (hv : ValidStr (urlparse u).query) :
    normalize_url (normalize_url u) = normalize_url u := by
  obtain ⟨hsch, hnet, hhead, hpath, hquery⟩ := urlparse_shape u
  rcases hsch with hnil | ⟨hvalid, hlow⟩
  · exact absurd hnil hS
  rcases hru : urlparse u with ⟨S, N, P, PR, Q, F⟩
  rw [hru] at hS hN hsemi hDS hQ hv hvalid hlow hnet hhead hpath hquery
  simp only at hS hN hsemi hDS hQ hv hvalid hlow hnet hhead hpath hquery
  have hp0 : P = [] ∨ P.head? = some 47 := hhead hN
  have hcS : List.count 47 S = 0 := List.count_eq_zero.mpr (fun hm =>
    (isSchemeChar_facts 47 (validScheme_all S hvalid 47 hm)).2.1 rfl)
  have hcN : List.count 47 N = 0 := List.count_eq_zero.mpr (fun hm => (hnet 47 hm).1 rfl)
  have hc2 : List.count 47 ([58, 47, 47] : PyStr) = 2 := by decide
  rcases hQ with hQnil | hQp
  · -- no query
    subst hQnil
    have hn1 := normalize_of_parse_noquery u S N P PR F hru
    by_cases hcond : ((S ++ [58, 47, 47] ++ N ++ P).getLast? = some 47 ∧
        3 < (S ++ [58, 47, 47] ++ N ++ P).count 47)
    · -- the first pass stripped a slash
      rw [hn1, if_pos hcond]
      have hPne : P ≠ [] := by
        intro hPnil
        obtain ⟨hL, _⟩ := hcond
        rw [hPnil, List.append_nil, getLast?_append_of_ne_nil _ _ hN] at hL
        cases hgN : N.getLast? with
        | none =>
          rw [List.getLast?_eq_none_iff] at hgN
          exact hN hgN
        | some y =>
          rw [hgN] at hL
          injection hL with hL
          exact (hnet y (List.mem_of_getLast?_eq_some hgN)).1 hL
      have hP47 : P.getLast? = some 47 := by
        obtain ⟨hL, _⟩ := hcond
        rw [getLast?_append_of_ne_nil _ _ hPne] at hL
        exact hL
      have hdrop : (S ++ [58, 47, 47] ++ N ++ P).dropLast =
          S ++ [58, 47, 47] ++ N ++ P.dropLast :=
        List.dropLast_append_of_ne_nil _ hPne
      rw [hdrop]
      have hp0head : P.head? = some 47 := hp0.resolve_left hPne
      have hp0' : P.dropLast = [] ∨ P.dropLast.head? = some 47 := by
        rcases dropLast_head P with h | h
        · exact Or.inl h
        · exact Or.inr (by rw [h, hp0head])
      have hsub' : ∀ c ∈ P.dropLast, c ∈ P := fun c hc => List.dropLast_subset _ hc
      have h2 := urlparse_build S N P.dropLast [] false hvalid hnet hp0'
        (fun c hc => hpath c (hsub' c hc))
        (by intro c hc; simp at hc)
        (splitparams_no_semi _ (fun hm => hsemi (hsub' 59 hm)))
      simp only [Bool.false_eq_true, if_false, List.append_nil] at h2
      rw [hlow] at h2
      have hn2 := normalize_of_parse_noquery _ S N P.dropLast [] [] h2
      rw [hn2, if_neg ?noc]
      case noc =>
        rintro ⟨hL2, hC2⟩
        have hPdne : P.dropLast ≠ [] := by
          intro hdn
          rw [hdn, List.append_nil, getLast?_append_of_ne_nil _ _ hN] at hL2
          cases hgN : N.getLast? with
          | none =>
            rw [List.getLast?_eq_none_iff] at hgN
            exact hN hgN
          | some y =>
            rw [hgN] at hL2
            injection hL2 with hL2
            exact (hnet y (List.mem_of_getLast?_eq_some hgN)).1 hL2
        have hPd47 : P.dropLast.getLast? = some 47 := by
          rw [getLast?_append_of_ne_nil _ _ hPdne] at hL2
          exact hL2
        have hPcnt : List.count 47 P = List.count 47 P.dropLast + 1 := by
          conv_lhs => rw [eq_dropLast_concat P 47 hP47]
          rw [List.count_append]
          simp
        have hcount : 3 ≤ List.count 47 P := by
          simp only [List.count_append, hcS, hcN, hc2] at hC2
          omega
        exact hDS ⟨hPd47, hP47, hcount⟩
    · -- the first pass did not strip
      rw [hn1, if_neg hcond]
      have h2 := urlparse_build S N P [] false hvalid hnet hp0 hpath
        (by intro c hc; simp at hc)
        (splitparams_no_semi _ hsemi)
      simp only [Bool.false_eq_true, if_false, List.append_nil] at h2
      rw [hlow] at h2
      have hn2 := normalize_of_parse_noquery _ S N P [] [] h2
      rw [hn2, if_neg hcond]
  · -- query present and parses to at least one pair
    have hQne : Q ≠ [] := by
      intro hqn
      rw [hqn] at hQp
      exact hQp (by decide)
    have hitems_ne : parse_qs Q ≠ [] := parse_qs_ne_nil Q hQp
    have hkeysnd := parse_qs_keys_nodup Q
    have hvals := parse_qs_vals Q
    have hval_items := parse_qs_valid Q (parse_qsl_valid Q hv)
    have hperm : (pySorted qitemLt (parse_qs Q)).Perm (parse_qs Q) :=
      pySorted_perm qitemLt (parse_qs Q)
    have hsorted_ne : pySorted qitemLt (parse_qs Q) ≠ [] := by
      intro he
      rw [he] at hperm
      exact hitems_ne (List.Perm.nil_eq hperm).symm
    have hsorted_vals : ∀ e ∈ pySorted qitemLt (parse_qs Q), e.2 ≠ [] :=
      fun e he => hvals e (hperm.mem_iff.mp he)
    have hsorted_valid : ∀ e ∈ pySorted qitemLt (parse_qs Q),
        ValidStr e.1 ∧ ∀ w ∈ e.2, ValidStr w :=
      fun e he => hval_items e (hperm.mem_iff.mp he)
    have hsorted_keys : ((pySorted qitemLt (parse_qs Q)).map Prod.fst).Nodup :=
      ((hperm.map Prod.fst).nodup_iff).mpr hkeysnd
    have hpair := pySorted_pairwise qitemLt qitemLt_asymm
      (ltStep_of qitemLt qitemLt_trans qitemLt_conn) (parse_qs Q)
    have hEQ_ne : urlencode (pySorted qitemLt (parse_qs Q)) ≠ [] :=
      urlencode_ne_nil _ hsorted_ne hsorted_vals
    have hEQ_mem := urlencode_mem _ hsorted_valid
    have hEQ_q : ∀ c ∈ urlencode (pySorted qitemLt (parse_qs Q)),
        c ≠ 35 ∧ c ≠ 9 ∧ c ≠ 13 ∧ c ≠ 10 := fun c hc =>
      ⟨(hEQ_mem c hc).1, (hEQ_mem c hc).2.1, (hEQ_mem c hc).2.2.1, (hEQ_mem c hc).2.2.2.1⟩
    have hlastX : ¬((S ++ [58, 47, 47] ++ N ++ P ++
        63 :: urlencode (pySorted qitemLt (parse_qs Q))).getLast? = some 47) := by
      rw [getLast?_append_of_ne_nil _ _
        (by simp : (63 :: urlencode (pySorted qitemLt (parse_qs Q))) ≠ [])]
      cases hEq : urlencode (pySorted qitemLt (parse_qs Q)) with
      | nil => exact absurd hEq hEQ_ne
      | cons e es =>
        rw [List.getLast?_cons_cons]
        intro hy
        have h47mem : (47 : Nat) ∈ urlencode (pySorted qitemLt (parse_qs Q)) := by
          rw [hEq]
          exact List.mem_of_getLast?_eq_some hy
        exact (hEQ_mem 47 h47mem).2.2.2.2 rfl
    have hqe : Q.isEmpty = false := by
      cases Q with
      | nil => exact absurd rfl hQne
      | cons a as => rfl
    have hn1 : normalize_url u = S ++ [58, 47, 47] ++ N ++ P ++
        63 :: urlencode (pySorted qitemLt (parse_qs Q)) := by
      rw [normalize_url, hru]
      simp only [hqe, Bool.false_eq_true, if_false]
      rw [if_neg (fun hcd => hlastX hcd.1)]
    have h2 := urlparse_build S N P (urlencode (pySorted qitemLt (parse_qs Q))) true
      hvalid hnet hp0 hpath hEQ_q (splitparams_no_semi _ hsemi)
    simp only [if_true] at h2
    rw [hlow] at h2
    have hEQe : (urlencode (pySorted qitemLt (parse_qs Q))).isEmpty = false := by
      cases hEq : urlencode (pySorted qitemLt (parse_qs Q)) with
      | nil => exact absurd hEq hEQ_ne
      | cons e es => rfl
    have hpp : parse_qsl (urlencode (pySorted qitemLt (parse_qs Q))) =
        (pySorted qitemLt (parse_qs Q)).flatMap fun kv => kv.2.map fun v => (kv.1, v) :=
      parse_qsl_urlencode _ (flatMap_pairs_ne_nil _ hsorted_ne hsorted_vals) hsorted_valid
    have hqs2 : parse_qs (urlencode (pySorted qitemLt (parse_qs Q))) =
        pySorted qitemLt (parse_qs Q) := by
      rw [parse_qs, hpp]
      exact parse_qs_of_grouped_flat _ hsorted_keys hsorted_vals
    have hfix : pySorted qitemLt (pySorted qitemLt (parse_qs Q)) =
        pySorted qitemLt (parse_qs Q) := pySorted_fix qitemLt _ hpair
    rw [hn1, normalize_url, h2]
    simp only [hEQe, Bool.false_eq_true, if_false, hqs2, hfix]
    rw [if_neg (fun hcd => hlastX hcd.1)]

/-- Witness for C3 amended: a URL with scheme, host, path and a two-pair
query renormalizes to itself. -/
theorem C3_idempotent_amended_witness :
    normalize_url (normalize_url (pyOfString "http://h/p?b=2&a=1")) =
      normalize_url (pyOfString "http://h/p?b=2&a=1") :=
  C3_idempotent_amended (pyOfString "http://h/p?b=2&a=1") (by decide) (by decide)
    (by decide) (by decide) (by decide) (by decide)

end WebScrap

